import Mathlib

/-!
# Verification of the goquery traversal engine (`traversal.go`)

Shallow embedding of the traversal/sibling-walk engine of `traversal.go`.

Modelling conventions:

* An `html.Node` pointer is modelled by a `Node` value (an identifier plus a
  node-kind tag).  Pointer identity becomes decidable equality on `Node`;
  a well-formed DOM gives every tree position a distinct identifier.
* The sibling pointer structure (`FirstChild` / `NextSibling` / `PrevSibling`)
  of the children of one parent is modelled by the parent's ordered child
  chain, a `List Node`; the pointer lookups are derived from that list
  (`nextSibling`, `prevSibling`, `List.head?` for `FirstChild`).
* A nil pointer is `Option.none`; dereferencing through a possibly-nil node
  uses `Option.bind` (the Go code only dereferences at call sites where the
  pointer is known non-nil).
* The unbounded Go `for` loops of the walker terminate because sibling chains
  of a real DOM are finite and acyclic: they are embedded with an explicit
  fuel of `chain.length + 1` steps, which the termination lemmas below show
  is never exhausted on a duplicate-free chain.
* Go slices of nodes are `List Node`; `mapNodes` is generalized over the
  element type so that the same definition serves node lists and the
  tree-handle lists used for `Find` (in Go both are `[]*html.Node`, a node
  pointer doubling as the handle of its subtree).
-/

/-- The node-kind tag of `html.NodeType` (go.net/html). -/
inductive NodeType where
  | errorNode
  | textNode
  | documentNode
  | elementNode
  | commentNode
  | doctypeNode
deriving DecidableEq, Repr

/-- A DOM node reference: identity (`id`) plus its `html.NodeType` tag.
Equality of `Node` values models pointer identity of `*html.Node`. -/
structure Node where
  id : Nat
  typ : NodeType
deriving DecidableEq, Repr

/-- Pointer lookup `n.NextSibling` for a node `n` of the sibling chain `chain`
(the ordered children of `n`'s parent): the entry immediately after the
first occurrence of `n`, if any. -/
def nextSibling : List Node → Node → Option Node
  | [], _ => none
  | a :: rest, n => if a = n then rest.head? else nextSibling rest n

/-- Pointer lookup `n.PrevSibling` for a node `n` of the sibling chain `chain`:
the entry immediately before the first occurrence of `n`, if any. -/
def prevSibling : List Node → Node → Option Node
  | [], _ => none
  | a :: rest, n => if rest.head? = some n then some a else prevSibling rest n

/-- Modelled from the spec: `isInSlice` (utilities.go, not under src/) —
whether a node reference occurs (by identity) in a slice of nodes. -/
def isInSlice (slice : List Node) (n : Node) : Bool :=
  slice.contains n

/-- Modelled from the spec: `sliceContains` (utilities.go, not under src/) —
whether the slice contains the given node reference (by identity). -/
def sliceContains (container : List Node) (n : Node) : Bool :=
  container.contains n

/-- Modelled from the spec (§4.2): `appendWithoutDuplicates` (utilities.go,
not under src/) — order-preserving, duplicate-eliminating append: each
candidate already present (by identity) anywhere in the accumulated result is
silently dropped, otherwise appended at the end. -/
def appendWithoutDuplicates {α : Type} [DecidableEq α] (target : List α) : List α → List α
  | [] => target
  | n :: rest =>
    if n ∈ target then appendWithoutDuplicates target rest
    else appendWithoutDuplicates (target ++ [n]) rest

/-- The loop of `mapNodes` (traversal.go:528-535): fold the per-node
expansions into the accumulated `result` via `appendWithoutDuplicates`,
skipping empty expansions. -/
def mapNodesGo {α : Type} [DecidableEq α] (f : Nat → α → List α) : Nat → List α → List α → List α
  | _, [], result => result
  | i, n :: rest, result =>
    let vals := f i n
    mapNodesGo f (i + 1) rest (if 0 < vals.length then appendWithoutDuplicates result vals else result)

/-- Function `mapNodes` (traversal.go:528-535): map the expansion function over the
source nodes in order and merge the results without duplicates.  Generic in
the element type (Go's version is monomorphic at `*html.Node`). -/
def mapNodes {α : Type} [DecidableEq α] (nodes : List α) (f : Nat → α → List α) : List α :=
  mapNodesGo f 0 nodes []

/-- Specification-side helper: keep the first occurrence of each element not
already in `seen`, dropping later duplicates. -/
def dedupFirstAux {α : Type} [DecidableEq α] (seen : List α) : List α → List α
  | [] => []
  | n :: rest =>
    if n ∈ seen then dedupFirstAux seen rest
    else n :: dedupFirstAux (n :: seen) rest

/-- Specification-side helper: the plain concatenation of the per-source
expansion results, in source order, with the running index `mapNodes`
passes to the expansion function. -/
def expansionConcat {α : Type} (f : Nat → α → List α) : Nat → List α → List α
  | _, [] => []
  | i, n :: rest => f i n ++ expansionConcat f (i + 1) rest

/-! ## Lemmas about the dedup merge -/

theorem dedupFirstAux_congr {α : Type} [DecidableEq α] (seen seen' : List α)
    (h : ∀ x, x ∈ seen ↔ x ∈ seen') : ∀ l, dedupFirstAux seen l = dedupFirstAux seen' l := by
  intro l
  induction l generalizing seen seen' with
  | nil => simp [dedupFirstAux]
  | cons n rest ih =>
    simp only [dedupFirstAux]
    by_cases hn : n ∈ seen
    · rw [if_pos hn, if_pos ((h n).1 hn)]
      exact ih seen seen' h
    · rw [if_neg hn, if_neg (fun hc => hn ((h n).2 hc))]
      refine congrArg (n :: ·) (ih _ _ ?_)
      intro x
      simp only [List.mem_cons]
      exact or_congr Iff.rfl (h x)

theorem appendWithoutDuplicates_eq {α : Type} [DecidableEq α] (l target : List α) :
    appendWithoutDuplicates target l = target ++ dedupFirstAux target l := by
  induction l generalizing target with
  | nil => simp [appendWithoutDuplicates, dedupFirstAux]
  | cons n rest ih =>
    simp only [appendWithoutDuplicates, dedupFirstAux]
    by_cases hn : n ∈ target
    · rw [if_pos hn, if_pos hn, ih]
    · rw [if_neg hn, if_neg hn, ih]
      rw [dedupFirstAux_congr (target ++ [n]) (n :: target) (by intro x; simp [or_comm]) rest]
      simp

theorem dedupFirstAux_nodup {α : Type} [DecidableEq α] (seen l : List α) :
    (dedupFirstAux seen l).Nodup ∧ ∀ x ∈ dedupFirstAux seen l, x ∉ seen := by
  induction l generalizing seen with
  | nil => simp [dedupFirstAux]
  | cons n rest ih =>
    simp only [dedupFirstAux]
    by_cases hn : n ∈ seen
    · rw [if_pos hn]; exact ih seen
    · rw [if_neg hn]
      obtain ⟨hnd, hmem⟩ := ih (n :: seen)
      constructor
      · refine List.nodup_cons.2 ⟨fun hc => ?_, hnd⟩
        exact hmem n hc (List.mem_cons_self n seen)
      · intro x hx hxs
        rcases List.mem_cons.1 hx with rfl | hx'
        · exact hn hxs
        · exact hmem x hx' (List.mem_cons_of_mem n hxs)

theorem dedupFirstAux_eq_self {α : Type} [DecidableEq α] (seen l : List α)
    (hdisj : ∀ x ∈ l, x ∉ seen) (hnd : l.Nodup) : dedupFirstAux seen l = l := by
  induction l generalizing seen with
  | nil => simp [dedupFirstAux]
  | cons n rest ih =>
    simp only [dedupFirstAux]
    rw [if_neg (hdisj n (List.mem_cons_self n rest))]
    refine congrArg (n :: ·) (ih _ ?_ (List.nodup_cons.1 hnd).2)
    intro x hx
    simp only [List.mem_cons, not_or]
    exact ⟨fun he => (List.nodup_cons.1 hnd).1 (he ▸ hx), hdisj x (List.mem_cons_of_mem n hx)⟩

theorem mem_dedupFirstAux {α : Type} [DecidableEq α] (seen l : List α) (x : α) :
    x ∈ dedupFirstAux seen l ↔ x ∈ l ∧ x ∉ seen := by
  induction l generalizing seen with
  | nil => simp [dedupFirstAux]
  | cons n rest ih =>
    simp only [dedupFirstAux]
    by_cases hn : n ∈ seen
    · rw [if_pos hn, ih]
      simp only [List.mem_cons]
      constructor
      · rintro ⟨h1, h2⟩; exact ⟨Or.inr h1, h2⟩
      · rintro ⟨h1 | h1, h2⟩
        · exact absurd hn (h1 ▸ h2)
        · exact ⟨h1, h2⟩
    · rw [if_neg hn]
      simp only [List.mem_cons, ih]
      by_cases hxn : x = n
      · subst hxn; tauto
      · tauto

theorem mem_appendWithoutDuplicates {α : Type} [DecidableEq α] (target l : List α) (x : α) :
    x ∈ appendWithoutDuplicates target l ↔ x ∈ target ∨ x ∈ l := by
  rw [appendWithoutDuplicates_eq, List.mem_append, mem_dedupFirstAux]
  tauto

theorem dedupFirstAux_append {α : Type} [DecidableEq α] (seen a b : List α) :
    dedupFirstAux seen (a ++ b) =
      dedupFirstAux seen a ++ dedupFirstAux (a.reverse ++ seen) b := by
  induction a generalizing seen with
  | nil => simp [dedupFirstAux]
  | cons n rest ih =>
    simp only [List.cons_append, dedupFirstAux, List.append_eq]
    by_cases hn : n ∈ seen
    · rw [if_pos hn, if_pos hn, ih]
      refine congrArg _ (dedupFirstAux_congr _ _ ?_ b)
      intro x
      simp only [List.reverse_cons, List.append_assoc, List.mem_append, List.mem_reverse,
        List.mem_cons, List.mem_singleton]
      by_cases hxn : x = n
      · subst hxn; tauto
      · tauto
    · rw [if_neg hn, if_neg hn, ih, List.cons_append]
      refine congrArg _ (congrArg _ (dedupFirstAux_congr _ _ ?_ b))
      intro x
      simp only [List.reverse_cons, List.append_assoc, List.mem_append, List.mem_reverse,
        List.mem_cons, List.mem_singleton]
      tauto

theorem mapNodesGo_eq {α : Type} [DecidableEq α] (f : Nat → α → List α) (nodes : List α)
    (i : Nat) (result : List α) :
    mapNodesGo f i nodes result = result ++ dedupFirstAux result (expansionConcat f i nodes) := by
  induction nodes generalizing i result with
  | nil => simp [mapNodesGo, expansionConcat, dedupFirstAux]
  | cons n rest ih =>
    simp only [mapNodesGo, expansionConcat]
    by_cases hv : 0 < (f i n).length
    · rw [if_pos hv, ih, appendWithoutDuplicates_eq, dedupFirstAux_append, List.append_assoc]
      refine congrArg _ (congrArg _ (dedupFirstAux_congr _ _ ?_ _))
      intro x
      simp only [List.mem_append, mem_dedupFirstAux, List.mem_reverse]
      tauto
    · rw [if_neg hv, ih]
      have hfn : f i n = [] := by
        cases hfe : f i n with
        | nil => rfl
        | cons y ys => rw [hfe] at hv; simp at hv
      rw [hfn]
      simp [dedupFirstAux]

theorem mapNodes_eq {α : Type} [DecidableEq α] (nodes : List α) (f : Nat → α → List α) :
    mapNodes nodes f = dedupFirstAux [] (expansionConcat f 0 nodes) := by
  rw [mapNodes, mapNodesGo_eq]
  simp

theorem mapNodes_singleton {α : Type} [DecidableEq α] (n : α) (f : Nat → α → List α)
    (hnd : (f 0 n).Nodup) : mapNodes [n] f = f 0 n := by
  rw [mapNodes_eq]
  simp only [expansionConcat, List.append_nil]
  exact dedupFirstAux_eq_self [] (f 0 n) (by simp) hnd

/-! ## The directional sibling walker (`getChildrenWithSiblingType`) -/

/-- The `siblingType` enumeration of traversal.go:8-21.  The Go `default:
panic` branch of the walker's switch is unreachable: the enumeration is
closed, which the exhaustive `match` below reflects. -/
inductive SiblingType where
  | siblingPrevUntil
  | siblingPrevAll
  | siblingPrev
  | siblingAll
  | siblingNext
  | siblingNextAll
  | siblingNextUntil
  | siblingAllIncludingNonElements
deriving DecidableEq, Repr

open SiblingType NodeType

/-- Whether a node is of element kind (`n.Type == html.ElementNode`). -/
def isElem (n : Node) : Bool :=
  n.typ = elementNode

/-- One pass of the `switch` inside the walker's `iter` closure
(traversal.go:455-495): compute the raw next position `ret` from the current
position `cur` (`none` encodes the first iteration), before the node-kind
check.  `parentChildren` is the child chain of the `parent` argument;
`skipNode` is the pivot to skip in the `All` modes. -/
def iterStep (parentChildren : List Node) (st : SiblingType) (skipNode : Option Node)
    (cur : Option Node) : Option Node :=
  match st with
  | siblingAll | siblingAllIncludingNonElements =>
    -- First iteration starts at parent.FirstChild, later ones at
    -- cur.NextSibling; either way, a hit on skipNode jumps to
    -- skipNode.NextSibling ("ret == skipNode && skipNode != nil").
    let base := match cur with
      | none => parentChildren.head?
      | some c => nextSibling parentChildren c
    match skipNode with
    | some sk => if base = some sk then nextSibling parentChildren sk else base
    | none => base
  | siblingPrev | siblingPrevAll | siblingPrevUntil =>
    match cur with
    | none => skipNode.bind (prevSibling parentChildren)
    | some c => prevSibling parentChildren c
  | siblingNext | siblingNextAll | siblingNextUntil =>
    match cur with
    | none => skipNode.bind (nextSibling parentChildren)
    | some c => nextSibling parentChildren c

/-- The `iter` closure of the walker (traversal.go:455-495): step from `cur`,
then keep stepping while the candidate is a non-element node (unless the mode
is `siblingAllIncludingNonElements`).  The Go `for` loop is given
`parentChildren.length + 1` fuel; on a duplicate-free chain the position
advances strictly each step, so the fuel is never exhausted. -/
def iterFuel (parentChildren : List Node) (st : SiblingType) (skipNode : Option Node) :
    Nat → Option Node → Option Node
  | 0, _ => none
  | fuel + 1, cur =>
    match iterStep parentChildren st skipNode cur with
    | none => none
    | some r =>
      if r.typ = elementNode ∨ st = siblingAllIncludingNonElements then some r
      else iterFuel parentChildren st skipNode fuel (some r)

/-- The main loop of the walker (traversal.go:497-511):
`for c := iter(nil); c != nil; c = iter(c)`, with the `*Until` stop test
before appending and the single-cardinality early return for
`siblingNext`/`siblingPrev`.  Fuelled like `iterFuel`. -/
def walkFuel (parentChildren : List Node) (st : SiblingType) (skipNode : Option Node)
    (untilFunc : Node → Bool) : Nat → Option Node → List Node
  | 0, _ => []
  | fuel + 1, cur =>
    match iterFuel parentChildren st skipNode (parentChildren.length + 1) cur with
    | none => []
    | some c =>
      if (st = siblingNextUntil ∨ st = siblingPrevUntil) ∧ untilFunc c then []
      else
        c :: (if st = siblingNext ∨ st = siblingPrev then []
              else walkFuel parentChildren st skipNode untilFunc fuel (some c))

/-- Function `getChildrenWithSiblingType` (traversal.go:451-512). `parentChildren` is
the ordered child chain of the Go `parent` argument (empty for a nil parent);
`untilFunc` is total here (Go passes nil outside the `*Until` modes, where it
is never called). -/
def getChildrenWithSiblingType (parentChildren : List Node) (st : SiblingType)
    (skipNode : Option Node) (untilFunc : Node → Bool) : List Node :=
  walkFuel parentChildren st skipNode untilFunc (parentChildren.length + 1) none

/-- The external collaborators and tree shape a traversal runs against.
`children` gives each node's ordered child chain (the
`FirstChild`/`NextSibling` links), `parent` the parent link, `ancestors` the
finite parent chain `n.Parent, n.Parent.Parent, …` (nearest first — data
here because the external tree guarantees its finiteness), and `isMatch` the
external compiled-selector test backing `Selection.Is`. -/
structure DomCtx where
  children : Node → List Node
  parent : Node → Option Node
  ancestors : Node → List Node
  isMatch : String → Node → Bool

/-- The child chain of `n.Parent` — the `parent` argument `getSiblingNodes`
passes to the walker (empty chain for a nil parent). -/
def parentChainOf (ctx : DomCtx) (n : Node) : List Node :=
  match ctx.parent n with
  | some p => ctx.children p
  | none => []

/-- The until-condition closure `f` built by `getSiblingNodes`
(traversal.go:421-434): the selector-based test when the selector is
non-empty, otherwise the node-set membership test when the node set is
non-empty, otherwise never true. -/
def sibUntilFunc (ctx : DomCtx) (untilSelector : String) (untilNodes : List Node)
    (n : Node) : Bool :=
  if untilSelector ≠ "" then ctx.isMatch untilSelector n
  else if 0 < untilNodes.length then isInSlice untilNodes n
  else false

/-- Function `getSiblingNodes` (traversal.go:416-439): build the until-condition test,
then map the walker over the source nodes with each node as its own skip
node and its parent chain as the walk context.  Go builds `f` only for the
`*Until` modes and passes nil otherwise; the walker never consults it
outside those modes, so building it unconditionally is equivalent. -/
def getSiblingNodes (ctx : DomCtx) (nodes : List Node) (st : SiblingType)
    (untilSelector : String) (untilNodes : List Node) : List Node :=
  mapNodes nodes fun _ n =>
    getChildrenWithSiblingType (parentChainOf ctx n) st (some n)
      (sibUntilFunc ctx untilSelector untilNodes)

/-- Function `getChildrenNodes` (traversal.go:443-447): walk each node's own child
chain with no skip node.  Go passes a nil `untilFunc`; the constant-false
function stands in for it (never consulted in the modes this is called
with). -/
def getChildrenNodes (ctx : DomCtx) (nodes : List Node) (st : SiblingType) : List Node :=
  mapNodes nodes fun _ n =>
    getChildrenWithSiblingType (ctx.children n) st none (fun _ => false)

/-! ## Link-function lemmas -/

theorem nextSibling_not_mem (chain : List Node) (n : Node) (h : n ∉ chain) :
    nextSibling chain n = none := by
  induction chain with
  | nil => rfl
  | cons a rest ih =>
    rw [nextSibling]
    rw [if_neg (fun he => h (by rw [← he]; exact List.mem_cons_self a rest))]
    exact ih fun hc => h (List.mem_cons_of_mem a hc)

theorem prevSibling_not_mem (chain : List Node) (n : Node) (h : n ∉ chain) :
    prevSibling chain n = none := by
  induction chain with
  | nil => rfl
  | cons a rest ih =>
    rw [prevSibling]
    have hr : rest.head? ≠ some n := by
      intro hc
      cases rest with
      | nil => simp at hc
      | cons b rest' =>
        simp only [List.head?_cons, Option.some.injEq] at hc
        exact h (by rw [← hc]; exact List.mem_cons_of_mem a (List.mem_cons_self b rest'))
    rw [if_neg hr]
    exact ih fun hc => h (List.mem_cons_of_mem a hc)

theorem nextSibling_decomp (pre post : List Node) (n : Node)
    (hnd : (pre ++ n :: post).Nodup) :
    nextSibling (pre ++ n :: post) n = post.head? := by
  induction pre with
  | nil => simp [nextSibling]
  | cons a pre' ih =>
    have hne : a ≠ n := by
      intro he
      subst he
      exact (List.nodup_cons.1 hnd).1 (List.mem_append.2 (Or.inr (List.mem_cons_self a post)))
    rw [List.cons_append, nextSibling, if_neg hne]
    exact ih (List.nodup_cons.1 hnd).2

theorem prevSibling_decomp (pre post : List Node) (n : Node)
    (hnd : (pre ++ n :: post).Nodup) :
    prevSibling (pre ++ n :: post) n = pre.getLast? := by
  induction pre with
  | nil =>
    have hnp : n ∉ post := by
      have := (List.nodup_cons.1 (by simpa using hnd)).1
      exact this
    simp only [List.nil_append, prevSibling]
    have hph : post.head? ≠ some n := by
      intro hc
      cases post with
      | nil => simp at hc
      | cons b post' =>
        simp only [List.head?_cons, Option.some.injEq] at hc
        exact hnp (by rw [← hc]; exact List.mem_cons_self b post')
    rw [if_neg hph]
    rw [prevSibling_not_mem post n hnp]
    rfl
  | cons a pre' ih =>
    rw [List.cons_append, prevSibling]
    cases pre' with
    | nil =>
      simp only [List.nil_append, List.head?_cons, if_pos rfl]
      rfl
    | cons b pre'' =>
      have hbn : b ≠ n := by
        intro he
        subst he
        have := (List.nodup_cons.1 hnd).2
        have hb := (List.nodup_cons.1 this).1
        exact hb (List.mem_append.2 (Or.inr (List.mem_cons_self b post)))
      have hh : ((b :: pre'') ++ n :: post).head? ≠ some n := by
        rw [List.cons_append, List.head?_cons]
        intro hc
        exact hbn (Option.some.inj hc)
      rw [if_neg hh]
      rw [ih (List.nodup_cons.1 hnd).2]
      rfl

theorem nextSibling_self_ne (chain : List Node) (n : Node) (hnd : chain.Nodup) :
    nextSibling chain n ≠ some n := by
  induction chain with
  | nil => simp [nextSibling]
  | cons a rest ih =>
    rw [nextSibling]
    by_cases ha : a = n
    · subst ha
      rw [if_pos rfl]
      intro hc
      cases rest with
      | nil => simp at hc
      | cons b rest' =>
        simp only [List.head?_cons, Option.some.injEq] at hc
        exact (List.nodup_cons.1 hnd).1 (by rw [← hc]; exact List.mem_cons_self b rest')
    · rw [if_neg ha]
      exact ih (List.nodup_cons.1 hnd).2

theorem prevSibling_eq_nextSibling_reverse (chain : List Node) (n : Node)
    (hnd : chain.Nodup) : prevSibling chain n = nextSibling chain.reverse n := by
  by_cases hm : n ∈ chain
  · obtain ⟨pre, post, rfl⟩ := List.append_of_mem hm
    have hrev : (pre ++ n :: post).reverse = post.reverse ++ n :: pre.reverse := by
      simp [List.reverse_append]
    rw [prevSibling_decomp pre post n hnd, hrev,
      nextSibling_decomp post.reverse pre.reverse n (by rw [← hrev]; exact List.nodup_reverse.2 hnd)]
    rw [List.head?_reverse]
  · rw [prevSibling_not_mem chain n hm,
      nextSibling_not_mem chain.reverse n (fun hc => hm (List.mem_reverse.1 hc))]

/-! ## Characterizing the iterator -/

theorem find?_decomp {α : Type} (p : α → Bool) (l : List α) (r : α)
    (h : l.find? p = some r) :
    ∃ l₁ l₂, l = l₁ ++ r :: l₂ ∧ (∀ x ∈ l₁, p x = false) ∧ p r = true := by
  induction l with
  | nil => simp [List.find?] at h
  | cons a l' ih =>
    by_cases hpa : p a = true
    · rw [List.find?_cons_of_pos _ hpa] at h
      obtain rfl : a = r := by injection h
      exact ⟨[], l', by simp, by simp, hpa⟩
    · rw [List.find?_cons_of_neg _ (by simpa using hpa)] at h
      obtain ⟨l₁, l₂, rfl, hl₁, hr⟩ := ih h
      exact ⟨a :: l₁, l₂, by simp, by
        intro x hx
        rcases List.mem_cons.1 hx with rfl | hx'
        · simpa using hpa
        · exact hl₁ x hx', hr⟩

theorem filter_eq_nil_of_false {α : Type} (p : α → Bool) (l : List α)
    (h : ∀ x ∈ l, p x = false) : l.filter p = [] := by
  induction l with
  | nil => rfl
  | cons a l' ih =>
    rw [List.filter_cons, if_neg (by simp [h a (List.mem_cons_self a l')])]
    exact ih fun x hx => h x (List.mem_cons_of_mem a hx)

theorem iterFuel_char (chain : List Node) (st : SiblingType) (skip : Option Node)
    (hstep : ∀ x, iterStep chain st skip (some x) = nextSibling chain x)
    (hst : st ≠ siblingAllIncludingNonElements) :
    ∀ (post pre : List Node) (c : Node) (fuel : Nat),
      pre ++ c :: post = chain → chain.Nodup → post.length + 1 ≤ fuel →
      iterFuel chain st skip fuel (some c) = post.find? isElem := by
  intro post
  induction post with
  | nil =>
    intro pre c fuel hch hnd hfuel
    cases fuel with
    | zero => omega
    | succ f =>
      have hnd' : (pre ++ c :: ([] : List Node)).Nodup := by rw [hch]; exact hnd
      have hns : nextSibling chain c = none := by
        rw [← hch]
        simpa using nextSibling_decomp pre [] c hnd'
      simp only [iterFuel]
      rw [hstep c, hns]
      rfl
  | cons r post' ih =>
    intro pre c fuel hch hnd hfuel
    cases fuel with
    | zero => omega
    | succ f =>
      have hnd' : (pre ++ c :: r :: post').Nodup := by rw [hch]; exact hnd
      have hns : nextSibling chain c = some r := by
        rw [← hch]
        simpa using nextSibling_decomp pre (r :: post') c hnd'
      simp only [iterFuel]
      rw [hstep c, hns]
      show (if r.typ = elementNode ∨ st = siblingAllIncludingNonElements then some r
        else iterFuel chain st skip f (some r)) = List.find? isElem (r :: post')
      by_cases hre : r.typ = elementNode
      · rw [if_pos (Or.inl hre), List.find?_cons_of_pos _ (by simp [isElem, hre])]
      · rw [if_neg (not_or.2 ⟨hre, hst⟩), List.find?_cons_of_neg _ (by simp [isElem, hre])]
        refine ih (pre ++ [c]) r f ?_ hnd (by simp at hfuel ⊢; omega)
        simpa [List.append_assoc] using hch

theorem iterFuel_char_none (chain : List Node) (st : SiblingType) (skip : Option Node)
    (l₀ pre₀ : List Node)
    (hstep : ∀ x, iterStep chain st skip (some x) = nextSibling chain x)
    (hst : st ≠ siblingAllIncludingNonElements)
    (hstart : iterStep chain st skip none = l₀.head?)
    (hch : pre₀ ++ l₀ = chain) (hnd : chain.Nodup) :
    ∀ fuel : Nat, l₀.length + 1 ≤ fuel →
      iterFuel chain st skip fuel none = l₀.find? isElem := by
  intro fuel hfuel
  cases fuel with
  | zero => omega
  | succ f =>
    simp only [iterFuel]
    rw [hstart]
    cases l₀ with
    | nil => rfl
    | cons r l' =>
      simp only [List.head?_cons]
      by_cases hre : r.typ = elementNode
      · rw [if_pos (Or.inl hre), List.find?_cons_of_pos _ (by simp [isElem, hre])]
      · rw [if_neg (not_or.2 ⟨hre, hst⟩), List.find?_cons_of_neg _ (by simp [isElem, hre])]
        refine iterFuel_char chain st skip hstep hst l' pre₀ r f hch hnd ?_
        simp at hfuel
        omega

/-! ## Characterizing the main walk loop -/

/-- Proof-side description of what the walker's main loop produces from the
ordered list of element candidates in walk direction: everything for the
`All` modes, the first candidate for the single modes, the longest
stop-free prefix for the `*Until` modes. -/
def sibTarget (st : SiblingType) (f : Node → Bool) (l : List Node) : List Node :=
  match st with
  | siblingNext | siblingPrev => l.take 1
  | siblingNextUntil | siblingPrevUntil => l.takeWhile fun c => !(f c)
  | _ => l

theorem sibTarget_nil (st : SiblingType) (f : Node → Bool) : sibTarget st f [] = [] := by
  cases st <;> rfl

theorem walkFuel_char (chain : List Node) (st : SiblingType) (skip : Option Node)
    (f : Node → Bool)
    (hstep : ∀ x, iterStep chain st skip (some x) = nextSibling chain x)
    (hst4 : st = siblingNext ∨ st = siblingNextAll ∨ st = siblingNextUntil ∨ st = siblingAll) :
    ∀ (N : Nat) (post pre : List Node) (c : Node) (fuel : Nat),
      post.length ≤ N → pre ++ c :: post = chain → chain.Nodup →
      post.length + 1 ≤ fuel →
      walkFuel chain st skip f fuel (some c) = sibTarget st f (post.filter isElem) := by
  have hst' : st ≠ siblingAllIncludingNonElements := by
    rcases hst4 with rfl | rfl | rfl | rfl <;> simp
  intro N
  induction N with
  | zero =>
    intro post pre c fuel hN hch hnd hfuel
    have hpost : post = [] := List.length_eq_zero.1 (Nat.le_zero.1 hN)
    subst hpost
    cases fuel with
    | zero => omega
    | succ fl =>
      simp only [walkFuel]
      rw [iterFuel_char chain st skip hstep hst' [] pre c (chain.length + 1) hch hnd
        (by omega)]
      rw [List.filter_nil, sibTarget_nil]
      rfl
  | succ N ih =>
    intro post pre c fuel hN hch hnd hfuel
    cases fuel with
    | zero => omega
    | succ fl =>
      simp only [walkFuel]
      have hlen : post.length + 1 ≤ chain.length + 1 := by
        have : chain.length = pre.length + (post.length + 1) := by rw [← hch]; simp
        omega
      rw [iterFuel_char chain st skip hstep hst' post pre c (chain.length + 1) hch hnd hlen]
      cases hfind : post.find? isElem with
      | none =>
        have hfil : post.filter isElem = [] := by
          refine filter_eq_nil_of_false _ _ ?_
          intro x hx
          have := List.find?_eq_none.1 hfind x hx
          simpa using this
        rw [hfil, sibTarget_nil]
      | some r =>
        obtain ⟨l₁, l₂, rfl, hl₁, hr⟩ := find?_decomp _ _ _ hfind
        have hfil : (l₁ ++ r :: l₂).filter isElem = r :: l₂.filter isElem := by
          rw [List.filter_append, filter_eq_nil_of_false _ _ hl₁, List.filter_cons,
            if_pos (by simp [hr])]
          rfl
        have hlen2 : l₂.length ≤ N := by
          have := hN
          simp only [List.length_append, List.length_cons] at this
          omega
        have hch2 : (pre ++ c :: l₁) ++ r :: l₂ = chain := by
          simpa [List.append_assoc] using hch
        have hfl2 : l₂.length + 1 ≤ fl := by
          simp only [List.length_append, List.length_cons] at hfuel
          omega
        rw [hfil]
        show (if (st = siblingNextUntil ∨ st = siblingPrevUntil) ∧ f r then []
          else r :: (if st = siblingNext ∨ st = siblingPrev then []
            else walkFuel chain st skip f fl (some r))) =
          sibTarget st f (r :: l₂.filter isElem)
        rcases hst4 with rfl | rfl | rfl | rfl
        · simp [sibTarget]
        · rw [ih l₂ (pre ++ c :: l₁) r fl hlen2 hch2 hnd hfl2]
          simp [sibTarget]
        · by_cases hfr : f r = true
          · simp [sibTarget, hfr]
          · rw [ih l₂ (pre ++ c :: l₁) r fl hlen2 hch2 hnd hfl2]
            simp only [Bool.not_eq_true] at hfr
            simp [sibTarget, hfr]
        · rw [ih l₂ (pre ++ c :: l₁) r fl hlen2 hch2 hnd hfl2]
          simp [sibTarget]

theorem walkFuel_char_none (chain : List Node) (st : SiblingType) (skip : Option Node)
    (f : Node → Bool) (l₀ pre₀ : List Node)
    (hstep : ∀ x, iterStep chain st skip (some x) = nextSibling chain x)
    (hst4 : st = siblingNext ∨ st = siblingNextAll ∨ st = siblingNextUntil ∨ st = siblingAll)
    (hstart : iterStep chain st skip none = l₀.head?)
    (hch : pre₀ ++ l₀ = chain) (hnd : chain.Nodup) (fuel : Nat)
    (hfuel : l₀.length + 1 ≤ fuel) :
    walkFuel chain st skip f fuel none = sibTarget st f (l₀.filter isElem) := by
  have hst' : st ≠ siblingAllIncludingNonElements := by
    rcases hst4 with rfl | rfl | rfl | rfl <;> simp
  cases fuel with
  | zero => omega
  | succ fl =>
    simp only [walkFuel]
    have hlen : l₀.length + 1 ≤ chain.length + 1 := by
      have : chain.length = pre₀.length + l₀.length := by rw [← hch]; simp
      omega
    rw [iterFuel_char_none chain st skip l₀ pre₀ hstep hst' hstart hch hnd
      (chain.length + 1) hlen]
    cases hfind : l₀.find? isElem with
    | none =>
      have hfil : l₀.filter isElem = [] := by
        refine filter_eq_nil_of_false _ _ ?_
        intro x hx
        have := List.find?_eq_none.1 hfind x hx
        simpa using this
      rw [hfil, sibTarget_nil]
    | some r =>
      obtain ⟨l₁, l₂, rfl, hl₁, hr⟩ := find?_decomp _ _ _ hfind
      have hfil : (l₁ ++ r :: l₂).filter isElem = r :: l₂.filter isElem := by
        rw [List.filter_append, filter_eq_nil_of_false _ _ hl₁, List.filter_cons,
          if_pos (by simp [hr])]
        rfl
      have hch2 : (pre₀ ++ l₁) ++ r :: l₂ = chain := by
        simpa [List.append_assoc] using hch
      have hfl2 : l₂.length + 1 ≤ fl := by
        simp only [List.length_append, List.length_cons] at hfuel
        omega
      rw [hfil]
      show (if (st = siblingNextUntil ∨ st = siblingPrevUntil) ∧ f r then []
        else r :: (if st = siblingNext ∨ st = siblingPrev then []
          else walkFuel chain st skip f fl (some r))) =
        sibTarget st f (r :: l₂.filter isElem)
      have hcont := walkFuel_char chain st skip f hstep hst4 l₂.length l₂ (pre₀ ++ l₁) r fl
        (Nat.le_refl _) hch2 hnd hfl2
      rcases hst4 with rfl | rfl | rfl | rfl
      · simp [sibTarget]
      · rw [hcont]
        simp [sibTarget]
      · by_cases hfr : f r = true
        · simp [sibTarget, hfr]
        · rw [hcont]
          simp only [Bool.not_eq_true] at hfr
          simp [sibTarget, hfr]
      · rw [hcont]
        simp [sibTarget]

/-! ## Bridges: the walker on a decomposed chain -/

theorem gCWST_next_modes (pre post : List Node) (p : Node) (f : Node → Bool)
    (st : SiblingType)
    (hst : st = siblingNext ∨ st = siblingNextAll ∨ st = siblingNextUntil)
    (hnd : (pre ++ p :: post).Nodup) :
    getChildrenWithSiblingType (pre ++ p :: post) st (some p) f =
      sibTarget st f (post.filter isElem) := by
  have hstep : ∀ x, iterStep (pre ++ p :: post) st (some p) (some x) =
      nextSibling (pre ++ p :: post) x := by
    rcases hst with rfl | rfl | rfl <;> intro x <;> rfl
  have hstart : iterStep (pre ++ p :: post) st (some p) none = post.head? := by
    have h := nextSibling_decomp pre post p hnd
    rcases hst with rfl | rfl | rfl <;> exact h
  refine walkFuel_char_none _ st (some p) f post (pre ++ [p]) hstep (by tauto) hstart
    (by simp) hnd _ ?_
  simp only [List.length_append, List.length_cons]
  omega

theorem gCWST_all_noskip (chain : List Node) (f : Node → Bool) (hnd : chain.Nodup) :
    getChildrenWithSiblingType chain siblingAll none f = chain.filter isElem := by
  have hstep : ∀ x, iterStep chain siblingAll none (some x) = nextSibling chain x :=
    fun _ => rfl
  have hstart : iterStep chain siblingAll none none = chain.head? := rfl
  have h := walkFuel_char_none chain siblingAll none f chain [] hstep (by tauto) hstart
    (by simp) hnd (chain.length + 1) (by omega)
  simpa [getChildrenWithSiblingType, sibTarget] using h

theorem iterFuel_step_none (chain : List Node) (st : SiblingType) (skip : Option Node)
    (fuel : Nat) (cur : Option Node) (h : iterStep chain st skip cur = none) :
    iterFuel chain st skip (fuel + 1) cur = none := by
  simp only [iterFuel]
  rw [h]

theorem iterFuel_step_keep (chain : List Node) (st : SiblingType) (skip : Option Node)
    (fuel : Nat) (cur : Option Node) (r : Node) (h : iterStep chain st skip cur = some r)
    (hcond : r.typ = elementNode ∨ st = siblingAllIncludingNonElements) :
    iterFuel chain st skip (fuel + 1) cur = some r := by
  simp only [iterFuel]
  rw [h]
  show (if r.typ = elementNode ∨ st = siblingAllIncludingNonElements then some r
    else iterFuel chain st skip fuel (some r)) = some r
  rw [if_pos hcond]

theorem walkFuel_step_none (chain : List Node) (st : SiblingType) (skip : Option Node)
    (f : Node → Bool) (fuel : Nat) (cur : Option Node)
    (h : iterFuel chain st skip (chain.length + 1) cur = none) :
    walkFuel chain st skip f (fuel + 1) cur = [] := by
  simp only [walkFuel]
  rw [h]

theorem walkFuel_step_cons (chain : List Node) (st : SiblingType) (skip : Option Node)
    (f : Node → Bool) (fuel : Nat) (cur : Option Node) (c : Node)
    (h : iterFuel chain st skip (chain.length + 1) cur = some c) :
    walkFuel chain st skip f (fuel + 1) cur =
      if (st = siblingNextUntil ∨ st = siblingPrevUntil) ∧ f c then []
      else c :: (if st = siblingNext ∨ st = siblingPrev then []
        else walkFuel chain st skip f fuel (some c)) := by
  simp only [walkFuel]
  rw [h]

theorem walkFuel_allIncl (chain : List Node) (f : Node → Bool) :
    ∀ (post pre : List Node) (c : Node) (fuel : Nat),
      pre ++ c :: post = chain → chain.Nodup → post.length + 1 ≤ fuel →
      walkFuel chain siblingAllIncludingNonElements none f fuel (some c) = post := by
  intro post
  induction post with
  | nil =>
    intro pre c fuel hch hnd hfuel
    cases fuel with
    | zero => omega
    | succ fl =>
      refine walkFuel_step_none chain _ none f fl (some c) ?_
      refine iterFuel_step_none chain _ none chain.length (some c) ?_
      show nextSibling chain c = none
      rw [← hch]
      simpa using nextSibling_decomp pre [] c (by rw [hch]; exact hnd)
  | cons r post' ih =>
    intro pre c fuel hch hnd hfuel
    cases fuel with
    | zero => omega
    | succ fl =>
      have hns : nextSibling chain c = some r := by
        rw [← hch]
        simpa using nextSibling_decomp pre (r :: post') c (by rw [hch]; exact hnd)
      rw [walkFuel_step_cons chain _ none f fl (some c) r
        (iterFuel_step_keep chain siblingAllIncludingNonElements none chain.length (some c) r
          (show iterStep chain siblingAllIncludingNonElements none (some c) = some r from hns)
          (Or.inr rfl))]
      rw [if_neg (by simp), if_neg (by simp)]
      refine congrArg _ (ih (pre ++ [c]) r fl ?_ hnd ?_)
      · simpa [List.append_assoc] using hch
      · simp only [List.length_cons] at hfuel
        omega

theorem gCWST_allIncl_noskip (chain : List Node) (f : Node → Bool) (hnd : chain.Nodup) :
    getChildrenWithSiblingType chain siblingAllIncludingNonElements none f = chain := by
  cases chain with
  | nil => rfl
  | cons r rest =>
    show walkFuel (r :: rest) siblingAllIncludingNonElements none f
      ((r :: rest).length + 1) none = r :: rest
    have hstart : iterStep (r :: rest) siblingAllIncludingNonElements none none =
        some r := rfl
    rw [walkFuel_step_cons (r :: rest) _ none f (r :: rest).length none r
      (iterFuel_step_keep (r :: rest) _ none (r :: rest).length none r hstart (Or.inr rfl))]
    rw [if_neg (by simp), if_neg (by simp)]
    exact congrArg _ (walkFuel_allIncl (r :: rest) f rest [] r (r :: rest).length rfl hnd
      (by simp))

/-! ## Reversal: the Prev modes walk the reversed chain like the Next modes -/

theorem iterFuel_step_cont (chain : List Node) (st : SiblingType) (skip : Option Node)
    (fuel : Nat) (cur : Option Node) (r : Node) (h : iterStep chain st skip cur = some r)
    (hcond : ¬(r.typ = elementNode ∨ st = siblingAllIncludingNonElements)) :
    iterFuel chain st skip (fuel + 1) cur = iterFuel chain st skip fuel (some r) := by
  simp only [iterFuel]
  rw [h]
  show (if r.typ = elementNode ∨ st = siblingAllIncludingNonElements then some r
    else iterFuel chain st skip fuel (some r)) = iterFuel chain st skip fuel (some r)
  rw [if_neg hcond]

theorem iterStep_prev_reverse (chain : List Node) (stP stN : SiblingType)
    (skip : Option Node)
    (hpair : stP = siblingPrev ∧ stN = siblingNext ∨
      stP = siblingPrevAll ∧ stN = siblingNextAll ∨
      stP = siblingPrevUntil ∧ stN = siblingNextUntil)
    (hnd : chain.Nodup) (cur : Option Node) :
    iterStep chain stP skip cur = iterStep chain.reverse stN skip cur := by
  rcases hpair with ⟨rfl, rfl⟩ | ⟨rfl, rfl⟩ | ⟨rfl, rfl⟩ <;>
  · cases cur with
    | none =>
      cases skip with
      | none => rfl
      | some sk => exact prevSibling_eq_nextSibling_reverse chain sk hnd
    | some c => exact prevSibling_eq_nextSibling_reverse chain c hnd

theorem iterFuel_prev_reverse (chain : List Node) (stP stN : SiblingType)
    (skip : Option Node)
    (hpair : stP = siblingPrev ∧ stN = siblingNext ∨
      stP = siblingPrevAll ∧ stN = siblingNextAll ∨
      stP = siblingPrevUntil ∧ stN = siblingNextUntil)
    (hnd : chain.Nodup) :
    ∀ (fuel : Nat) (cur : Option Node),
      iterFuel chain stP skip fuel cur = iterFuel chain.reverse stN skip fuel cur := by
  have hPne : stP ≠ siblingAllIncludingNonElements := by
    rcases hpair with ⟨rfl, _⟩ | ⟨rfl, _⟩ | ⟨rfl, _⟩ <;> simp
  have hNne : stN ≠ siblingAllIncludingNonElements := by
    rcases hpair with ⟨_, rfl⟩ | ⟨_, rfl⟩ | ⟨_, rfl⟩ <;> simp
  intro fuel
  induction fuel with
  | zero => intro cur; rfl
  | succ fl ih =>
    intro cur
    cases h : iterStep chain stP skip cur with
    | none =>
      rw [iterFuel_step_none chain stP skip fl cur h,
        iterFuel_step_none chain.reverse stN skip fl cur
          (by rw [← iterStep_prev_reverse chain stP stN skip hpair hnd cur]; exact h)]
    | some r =>
      have h' : iterStep chain.reverse stN skip cur = some r := by
        rw [← iterStep_prev_reverse chain stP stN skip hpair hnd cur]; exact h
      by_cases hre : r.typ = elementNode
      · rw [iterFuel_step_keep chain stP skip fl cur r h (Or.inl hre),
          iterFuel_step_keep chain.reverse stN skip fl cur r h' (Or.inl hre)]
      · rw [iterFuel_step_cont chain stP skip fl cur r h (not_or.2 ⟨hre, hPne⟩),
          iterFuel_step_cont chain.reverse stN skip fl cur r h' (not_or.2 ⟨hre, hNne⟩)]
        exact ih (some r)

theorem walkFuel_prev_reverse (chain : List Node) (stP stN : SiblingType)
    (skip : Option Node) (f : Node → Bool)
    (hpair : stP = siblingPrev ∧ stN = siblingNext ∨
      stP = siblingPrevAll ∧ stN = siblingNextAll ∨
      stP = siblingPrevUntil ∧ stN = siblingNextUntil)
    (hnd : chain.Nodup) :
    ∀ (fuel : Nat) (cur : Option Node),
      walkFuel chain stP skip f fuel cur = walkFuel chain.reverse stN skip f fuel cur := by
  have hu : (stP = siblingNextUntil ∨ stP = siblingPrevUntil) ↔
      (stN = siblingNextUntil ∨ stN = siblingPrevUntil) := by
    rcases hpair with ⟨rfl, rfl⟩ | ⟨rfl, rfl⟩ | ⟨rfl, rfl⟩ <;> simp
  have hs : (stP = siblingNext ∨ stP = siblingPrev) ↔
      (stN = siblingNext ∨ stN = siblingPrev) := by
    rcases hpair with ⟨rfl, rfl⟩ | ⟨rfl, rfl⟩ | ⟨rfl, rfl⟩ <;> simp
  intro fuel
  induction fuel with
  | zero => intro cur; rfl
  | succ fl ih =>
    intro cur
    have hfe : chain.reverse.length + 1 = chain.length + 1 := by
      rw [List.length_reverse]
    cases h : iterFuel chain stP skip (chain.length + 1) cur with
    | none =>
      rw [walkFuel_step_none chain stP skip f fl cur h,
        walkFuel_step_none chain.reverse stN skip f fl cur
          (by rw [hfe, ← iterFuel_prev_reverse chain stP stN skip hpair hnd]; exact h)]
    | some c =>
      rw [walkFuel_step_cons chain stP skip f fl cur c h,
        walkFuel_step_cons chain.reverse stN skip f fl cur c
          (by rw [hfe, ← iterFuel_prev_reverse chain stP stN skip hpair hnd]; exact h)]
      by_cases huc : (stP = siblingNextUntil ∨ stP = siblingPrevUntil) ∧ f c
      · rw [if_pos huc, if_pos ⟨hu.1 huc.1, huc.2⟩]
      · rw [if_neg huc,
          if_neg (show ¬((stN = siblingNextUntil ∨ stN = siblingPrevUntil) ∧ f c) from
            fun hc => huc ⟨hu.2 hc.1, hc.2⟩)]
        refine congrArg _ ?_
        by_cases hsc : stP = siblingNext ∨ stP = siblingPrev
        · rw [if_pos hsc, if_pos (hs.1 hsc)]
        · rw [if_neg hsc, if_neg (fun hc => hsc (hs.2 hc))]
          exact ih (some c)

theorem gCWST_prev_modes (pre post : List Node) (p : Node) (f : Node → Bool)
    (stP stN : SiblingType)
    (hpair : stP = siblingPrev ∧ stN = siblingNext ∨
      stP = siblingPrevAll ∧ stN = siblingNextAll ∨
      stP = siblingPrevUntil ∧ stN = siblingNextUntil)
    (hnd : (pre ++ p :: post).Nodup) :
    getChildrenWithSiblingType (pre ++ p :: post) stP (some p) f =
      sibTarget stN f (pre.reverse.filter isElem) := by
  show walkFuel (pre ++ p :: post) stP (some p) f ((pre ++ p :: post).length + 1) none = _
  rw [walkFuel_prev_reverse (pre ++ p :: post) stP stN (some p) f hpair hnd]
  have hrev : (pre ++ p :: post).reverse = post.reverse ++ p :: pre.reverse := by
    simp
  have hlen : (pre ++ p :: post).length = (post.reverse ++ p :: pre.reverse).length := by
    simp
    omega
  rw [hrev, hlen]
  exact gCWST_next_modes post.reverse pre.reverse p f stN
    (by rcases hpair with ⟨_, rfl⟩ | ⟨_, rfl⟩ | ⟨_, rfl⟩ <;> simp)
    (by rw [← hrev]; exact List.nodup_reverse.2 hnd)

/-! ## The All modes with a skip node never produce the skip node -/

theorem skipFix_ne (chain : List Node) (p : Node) (B : Option Node) (hnd : chain.Nodup) :
    (if B = some p then nextSibling chain p else B) ≠ some p := by
  by_cases h : B = some p
  · rw [if_pos h]
    exact nextSibling_self_ne chain p hnd
  · rw [if_neg h]
    exact h

theorem iterStep_all_skip_ne (chain : List Node) (st : SiblingType) (p : Node)
    (hst : st = siblingAll ∨ st = siblingAllIncludingNonElements)
    (hnd : chain.Nodup) (cur : Option Node) :
    iterStep chain st (some p) cur ≠ some p := by
  rcases hst with rfl | rfl <;>
  · cases cur with
    | none => exact skipFix_ne chain p chain.head? hnd
    | some c => exact skipFix_ne chain p (nextSibling chain c) hnd

theorem iterFuel_all_skip_ne (chain : List Node) (st : SiblingType) (p : Node)
    (hst : st = siblingAll ∨ st = siblingAllIncludingNonElements)
    (hnd : chain.Nodup) :
    ∀ (fuel : Nat) (cur : Option Node), iterFuel chain st (some p) fuel cur ≠ some p := by
  intro fuel
  induction fuel with
  | zero => intro cur; simp [iterFuel]
  | succ fl ih =>
    intro cur
    cases h : iterStep chain st (some p) cur with
    | none =>
      rw [iterFuel_step_none chain st (some p) fl cur h]
      simp
    | some r =>
      have hrp : r ≠ p := by
        intro he
        exact iterStep_all_skip_ne chain st p hst hnd cur (he ▸ h)
      by_cases hcond : r.typ = elementNode ∨ st = siblingAllIncludingNonElements
      · rw [iterFuel_step_keep chain st (some p) fl cur r h hcond]
        intro hc
        exact hrp (Option.some.inj hc)
      · rw [iterFuel_step_cont chain st (some p) fl cur r h hcond]
        exact ih (some r)

theorem walkFuel_all_skip_not_mem (chain : List Node) (st : SiblingType) (p : Node)
    (f : Node → Bool)
    (hst : st = siblingAll ∨ st = siblingAllIncludingNonElements)
    (hnd : chain.Nodup) :
    ∀ (fuel : Nat) (cur : Option Node), p ∉ walkFuel chain st (some p) f fuel cur := by
  intro fuel
  induction fuel with
  | zero => intro cur; simp [walkFuel]
  | succ fl ih =>
    intro cur
    cases h : iterFuel chain st (some p) (chain.length + 1) cur with
    | none =>
      rw [walkFuel_step_none chain st (some p) f fl cur h]
      simp
    | some c =>
      have hcp : c ≠ p := by
        intro he
        exact iterFuel_all_skip_ne chain st p hst hnd (chain.length + 1) cur (he ▸ h)
      rw [walkFuel_step_cons chain st (some p) f fl cur c h]
      intro hmem
      rcases em ((st = siblingNextUntil ∨ st = siblingPrevUntil) ∧ f c) with hA | hA
      · rw [if_pos hA] at hmem
        simp at hmem
      · rw [if_neg hA] at hmem
        rcases List.mem_cons.1 hmem with he | hmem'
        · exact hcp he.symm
        · rcases em (st = siblingNext ∨ st = siblingPrev) with hB | hB
          · rw [if_pos hB] at hmem'
            simp at hmem'
          · rw [if_neg hB] at hmem'
            exact ih (some c) hmem'

/-! ## Per-mode corollaries of the bridges -/

theorem gCWST_nextAll (pre post : List Node) (p : Node) (f : Node → Bool)
    (hnd : (pre ++ p :: post).Nodup) :
    getChildrenWithSiblingType (pre ++ p :: post) siblingNextAll (some p) f =
      post.filter isElem := by
  simpa [sibTarget] using
    gCWST_next_modes pre post p f siblingNextAll (Or.inr (Or.inl rfl)) hnd

theorem gCWST_next (pre post : List Node) (p : Node) (f : Node → Bool)
    (hnd : (pre ++ p :: post).Nodup) :
    getChildrenWithSiblingType (pre ++ p :: post) siblingNext (some p) f =
      (post.filter isElem).take 1 := by
  simpa [sibTarget] using
    gCWST_next_modes pre post p f siblingNext (Or.inl rfl) hnd

theorem gCWST_nextUntil (pre post : List Node) (p : Node) (f : Node → Bool)
    (hnd : (pre ++ p :: post).Nodup) :
    getChildrenWithSiblingType (pre ++ p :: post) siblingNextUntil (some p) f =
      (post.filter isElem).takeWhile (fun c => !(f c)) := by
  simpa [sibTarget] using
    gCWST_next_modes pre post p f siblingNextUntil (Or.inr (Or.inr rfl)) hnd

theorem gCWST_prevAll (pre post : List Node) (p : Node) (f : Node → Bool)
    (hnd : (pre ++ p :: post).Nodup) :
    getChildrenWithSiblingType (pre ++ p :: post) siblingPrevAll (some p) f =
      pre.reverse.filter isElem := by
  simpa [sibTarget] using
    gCWST_prev_modes pre post p f siblingPrevAll siblingNextAll
      (Or.inr (Or.inl ⟨rfl, rfl⟩)) hnd

theorem gCWST_prev (pre post : List Node) (p : Node) (f : Node → Bool)
    (hnd : (pre ++ p :: post).Nodup) :
    getChildrenWithSiblingType (pre ++ p :: post) siblingPrev (some p) f =
      (pre.reverse.filter isElem).take 1 := by
  simpa [sibTarget] using
    gCWST_prev_modes pre post p f siblingPrev siblingNext (Or.inl ⟨rfl, rfl⟩) hnd

theorem gCWST_prevUntil (pre post : List Node) (p : Node) (f : Node → Bool)
    (hnd : (pre ++ p :: post).Nodup) :
    getChildrenWithSiblingType (pre ++ p :: post) siblingPrevUntil (some p) f =
      (pre.reverse.filter isElem).takeWhile (fun c => !(f c)) := by
  simpa [sibTarget] using
    gCWST_prev_modes pre post p f siblingPrevUntil siblingNextUntil
      (Or.inr (Or.inr ⟨rfl, rfl⟩)) hnd

/-! ## The ancestors walk (`getParentsNodes`) -/

/-- The per-source loop of `getParentsNodes` (traversal.go:394-413), walking
the ancestor chain `ancs` (`n.Parent`, `n.Parent.Parent`, …, nearest first):
at each ancestor, break on the stop condition — the selector when it is
non-empty, otherwise membership in the stop-node set when it is non-empty —
and otherwise append the ancestor exactly when it is an element node. -/
def parentsWalk (ctx : DomCtx) (stopSelector : String) (stopNodes : List Node) :
    List Node → List Node
  | [] => []
  | p :: rest =>
    if (if stopSelector ≠ "" then ctx.isMatch stopSelector p
        else if 0 < stopNodes.length then isInSlice stopNodes p
        else false) then []
    else if p.typ = elementNode then p :: parentsWalk ctx stopSelector stopNodes rest
    else parentsWalk ctx stopSelector stopNodes rest

/-- Function `getParentsNodes` (traversal.go:394-413): map the ancestors walk over the
source nodes, merging with the dedup merge. -/
def getParentsNodes (ctx : DomCtx) (nodes : List Node) (stopSelector : String)
    (stopNodes : List Node) : List Node :=
  mapNodes nodes fun _ n => parentsWalk ctx stopSelector stopNodes (ctx.ancestors n)

/-- Specification-side: the stop condition the ancestors walk tests at each
ancestor. -/
def parentsStop (ctx : DomCtx) (stopSelector : String) (stopNodes : List Node)
    (p : Node) : Bool :=
  if stopSelector ≠ "" then ctx.isMatch stopSelector p
  else if 0 < stopNodes.length then isInSlice stopNodes p
  else false

theorem parentsWalk_eq (ctx : DomCtx) (stopSelector : String) (stopNodes : List Node)
    (ancs : List Node) :
    parentsWalk ctx stopSelector stopNodes ancs =
      (ancs.takeWhile fun p => !(parentsStop ctx stopSelector stopNodes p)).filter
        isElem := by
  induction ancs with
  | nil => rfl
  | cons p rest ih =>
    rw [List.takeWhile_cons]
    cases hstop : parentsStop ctx stopSelector stopNodes p with
    | true =>
      have hstop' : (if stopSelector ≠ "" then ctx.isMatch stopSelector p
          else if 0 < stopNodes.length then isInSlice stopNodes p else false) = true := hstop
      simp only [parentsWalk, hstop', if_true, Bool.not_true, List.filter_nil]
      rfl
    | false =>
      have hstop' : (if stopSelector ≠ "" then ctx.isMatch stopSelector p
          else if 0 < stopNodes.length then isInSlice stopNodes p else false) = false := hstop
      simp only [parentsWalk, hstop', Bool.false_eq_true, if_false, Bool.not_false, if_true,
        List.filter_cons]
      by_cases hel : p.typ = elementNode
      · rw [if_pos hel, if_pos (by simp [isElem, hel]), ih]
      · rw [if_neg hel, if_neg (by simp [isElem, hel]), ih]

/-! ## Subtrees for the descendant search (`findWithSelector`) -/

/-- A DOM subtree handle: the node at a position with the subtrees of its
children in order.  In Go a `*html.Node` doubles as the handle of its
subtree through its `FirstChild`/`NextSibling` links; pointer identity is
value identity here (distinct positions carry distinct node identifiers in a
well-formed DOM). -/
inductive HTree where
  | mk (node : Node) (children : List HTree)

/-- The node at the root of the subtree handle. -/
def HTree.rootNode : HTree → Node
  | .mk n _ => n

/-- The child subtrees of the handle. -/
def HTree.childTrees : HTree → List HTree
  | .mk _ cs => cs

mutual
def HTree.beq : HTree → HTree → Bool
  | .mk n cs, .mk n' cs' => n == n' && HTree.beqList cs cs'
def HTree.beqList : List HTree → List HTree → Bool
  | [], [] => true
  | t :: ts, t' :: ts' => HTree.beq t t' && HTree.beqList ts ts'
  | _, _ => false
end

mutual
theorem HTree.beq_iff : ∀ (t t' : HTree), (HTree.beq t t' = true) ↔ t = t'
  | .mk n cs, .mk n' cs' => by
    simp only [HTree.beq, Bool.and_eq_true, beq_iff_eq, HTree.mk.injEq]
    constructor
    · rintro ⟨rfl, h⟩
      exact ⟨rfl, (HTree.beqList_iff cs cs').1 h⟩
    · rintro ⟨rfl, rfl⟩
      exact ⟨rfl, (HTree.beqList_iff cs cs).2 rfl⟩
theorem HTree.beqList_iff : ∀ (ts ts' : List HTree), (HTree.beqList ts ts' = true) ↔ ts = ts'
  | [], [] => by simp [HTree.beqList]
  | [], _ :: _ => by simp [HTree.beqList]
  | _ :: _, [] => by simp [HTree.beqList]
  | t :: ts, t' :: ts' => by
    simp only [HTree.beqList, Bool.and_eq_true, List.cons.injEq]
    rw [HTree.beq_iff t t', HTree.beqList_iff ts ts']
end

instance : DecidableEq HTree := fun t t' => decidable_of_iff _ (HTree.beq_iff t t')

mutual
/-- The number of positions in the subtree. -/
def HTree.size : HTree → Nat
  | .mk _ cs => 1 + sizeList cs
def sizeList : List HTree → Nat
  | [] => 0
  | t :: ts => HTree.size t + sizeList ts
end

mutual
/-- All subtree handles of `t`: `t` itself and every descendant position. -/
def subtrees : HTree → List HTree
  | .mk n cs => HTree.mk n cs :: subtreesList cs
def subtreesList : List HTree → List HTree
  | [] => []
  | t :: ts => subtrees t ++ subtreesList ts
end

/-- The strict-descendant subtree handles of `t` (every position below `t`,
excluding `t` itself). -/
def strictSubtrees (t : HTree) : List HTree :=
  subtreesList t.childTrees

mutual
/-- Modelled from the spec (§2, §6): the external compiled selector's subtree
enumeration (cascadia's `Selector.MatchAll`, not part of this repository) —
every position of the subtree rooted at `t` (the root included) whose node
satisfies the match predicate `p`, in preorder. -/
def matchAll (p : Node → Bool) : HTree → List HTree
  | .mk n cs => (if p n then [HTree.mk n cs] else []) ++ matchAllList p cs
def matchAllList (p : Node → Bool) : List HTree → List HTree
  | [] => []
  | t :: ts => matchAll p t ++ matchAllList p ts
end

/-- The inner loop of `findWithSelector` (traversal.go:381-388): over the
source node's immediate children, run the matcher's subtree enumeration on
each element child, concatenating the results. -/
def findExpand (p : Node → Bool) : List HTree → List HTree
  | [] => []
  | c :: cs =>
    (if c.rootNode.typ = elementNode then matchAll p c else []) ++ findExpand p cs

/-- Function `findWithSelector` (traversal.go:377-390), with the compiled selector
modelled as the node predicate `p` and node pointers as subtree handles:
map the per-source expansion over the sources and merge via `mapNodes`. -/
def findWithSelector (trees : List HTree) (p : Node → Bool) : List HTree :=
  mapNodes trees fun _ t => findExpand p t.childTrees

theorem HTree.size_pos : ∀ t : HTree, 1 ≤ t.size
  | .mk _ cs => by simp only [HTree.size]; omega

theorem mem_subtreesList_size :
    ∀ (N : Nat) (cs : List HTree), sizeList cs ≤ N →
      ∀ t' ∈ subtreesList cs, HTree.size t' ≤ sizeList cs := by
  intro N
  induction N with
  | zero =>
    intro cs hsz t' hmem
    cases cs with
    | nil => simp [subtreesList] at hmem
    | cons c cs' =>
      exfalso
      have := HTree.size_pos c
      simp only [sizeList] at hsz
      omega
  | succ N ih =>
    intro cs hsz t' hmem
    cases cs with
    | nil => simp [subtreesList] at hmem
    | cons c cs' =>
      simp only [subtreesList, List.mem_append] at hmem
      simp only [sizeList] at hsz ⊢
      rcases hmem with hm | hm
      · cases c with
        | mk n cs₀ =>
          simp only [subtrees, List.mem_cons] at hm
          rcases hm with rfl | hm
          · omega
          · have hsz₀ : sizeList cs₀ ≤ N := by
              have := HTree.size_pos (HTree.mk n cs₀)
              simp only [HTree.size] at *
              omega
            have := ih cs₀ hsz₀ t' hm
            simp only [HTree.size] at *
            omega
      · have hszc : sizeList cs' ≤ N := by
          have := HTree.size_pos c
          omega
        have := ih cs' hszc t' hm
        omega

theorem matchAllList_sub (p : Node → Bool) :
    ∀ (N : Nat) (cs : List HTree), sizeList cs ≤ N →
      ∀ t' ∈ matchAllList p cs, t' ∈ subtreesList cs := by
  intro N
  induction N with
  | zero =>
    intro cs hsz t' hmem
    cases cs with
    | nil => simp [matchAllList] at hmem
    | cons c cs' =>
      exfalso
      have := HTree.size_pos c
      simp only [sizeList] at hsz
      omega
  | succ N ih =>
    intro cs hsz t' hmem
    cases cs with
    | nil => simp [matchAllList] at hmem
    | cons c cs' =>
      simp only [matchAllList, List.mem_append] at hmem
      simp only [subtreesList, List.mem_append]
      simp only [sizeList] at hsz
      rcases hmem with hm | hm
      · left
        cases c with
        | mk n cs₀ =>
          simp only [matchAll, List.mem_append] at hm
          simp only [subtrees, List.mem_cons]
          rcases hm with hm | hm
          · left
            by_cases hp : p n = true
            · rw [if_pos hp] at hm
              simpa using hm
            · rw [if_neg hp] at hm
              simp at hm
          · right
            have hsz₀ : sizeList cs₀ ≤ N := by
              simp only [HTree.size] at hsz
              omega
            exact ih cs₀ hsz₀ t' hm
      · right
        have hszc : sizeList cs' ≤ N := by
          have := HTree.size_pos c
          omega
        exact ih cs' hszc t' hm

theorem mem_findExpand (p : Node → Bool) (cs : List HTree) (t' : HTree)
    (h : t' ∈ findExpand p cs) : t' ∈ subtreesList cs := by
  induction cs with
  | nil => simp [findExpand] at h
  | cons c cs' ih =>
    simp only [findExpand, List.mem_append] at h
    simp only [subtreesList, List.mem_append]
    rcases h with hm | hm
    · left
      by_cases hel : c.rootNode.typ = elementNode
      · rw [if_pos hel] at hm
        cases c with
        | mk n cs₀ =>
          have := matchAllList_sub p (sizeList cs₀) cs₀ (Nat.le_refl _)
          simp only [matchAll, List.mem_append] at hm
          simp only [subtrees, List.mem_cons]
          rcases hm with hm | hm
          · left
            by_cases hp : p n = true
            · rw [if_pos hp] at hm
              simpa using hm
            · rw [if_neg hp] at hm
              simp at hm
          · exact Or.inr (this t' hm)
      · rw [if_neg hel] at hm
        simp at hm
    · exact Or.inr (ih hm)

theorem mem_expansionConcat {α : Type} (f : Nat → α → List α) :
    ∀ (i : Nat) (nodes : List α) (x : α), x ∈ expansionConcat f i nodes →
      ∃ n ∈ nodes, ∃ j, x ∈ f j n := by
  intro i nodes
  induction nodes generalizing i with
  | nil => intro x hx; simp [expansionConcat] at hx
  | cons n rest ih =>
    intro x hx
    simp only [expansionConcat, List.mem_append] at hx
    rcases hx with hx | hx
    · exact ⟨n, List.mem_cons_self n rest, i, hx⟩
    · obtain ⟨m, hm, j, hj⟩ := ih (i + 1) x hx
      exact ⟨m, List.mem_cons_of_mem n hm, j, hj⟩

theorem mem_mapNodes {α : Type} [DecidableEq α] (nodes : List α) (f : Nat → α → List α)
    (x : α) (h : x ∈ mapNodes nodes f) : ∃ n ∈ nodes, ∃ j, x ∈ f j n := by
  rw [mapNodes_eq] at h
  exact mem_expansionConcat f 0 nodes x ((mem_dedupFirstAux [] _ x).1 h).1

theorem self_not_mem_strictSubtrees (t : HTree) : t ∉ strictSubtrees t := by
  intro hmem
  have h := mem_subtreesList_size (sizeList t.childTrees) t.childTrees (Nat.le_refl _) t hmem
  cases t with
  | mk n cs =>
    simp only [HTree.childTrees] at h
    simp only [HTree.size] at h
    omega

/-! ## Public wrappers (the `Selection` API surface the claims mention) -/

/-- The receiver of the public API: the selection's matched node set.  (The
Go struct also carries the owning document and previous-selection links,
which the traversal semantics never read.) -/
structure Selection where
  nodes : List Node
deriving DecidableEq, Repr

/-- Modelled from the spec (§6): `pushStack` (type.go, not under src/) —
wrap a raw traversal result in a new selection object handed back to the
caller (a nil Go node slice is the empty list). -/
def pushStack (_s : Selection) (nodes : List Node) : Selection :=
  { nodes := nodes }

/-- Wrapper `Siblings` (traversal.go:200-202). -/
def Selection.Siblings (ctx : DomCtx) (s : Selection) : Selection :=
  pushStack s (getSiblingNodes ctx s.nodes siblingAll "" [])

/-- Wrapper `Next` (traversal.go:213-215). -/
def Selection.Next (ctx : DomCtx) (s : Selection) : Selection :=
  pushStack s (getSiblingNodes ctx s.nodes siblingNext "" [])

/-- Wrapper `NextAll` (traversal.go:226-228). -/
def Selection.NextAll (ctx : DomCtx) (s : Selection) : Selection :=
  pushStack s (getSiblingNodes ctx s.nodes siblingNextAll "" [])

/-- Wrapper `Prev` (traversal.go:239-241). -/
def Selection.Prev (ctx : DomCtx) (s : Selection) : Selection :=
  pushStack s (getSiblingNodes ctx s.nodes siblingPrev "" [])

/-- Wrapper `PrevAll` (traversal.go:252-254). -/
def Selection.PrevAll (ctx : DomCtx) (s : Selection) : Selection :=
  pushStack s (getSiblingNodes ctx s.nodes siblingPrevAll "" [])

/-- Wrapper `NextUntil` (traversal.go:266-269). -/
def Selection.NextUntil (ctx : DomCtx) (s : Selection) (selector : String) : Selection :=
  pushStack s (getSiblingNodes ctx s.nodes siblingNextUntil selector [])

/-- Wrapper `NextUntilNodes` (traversal.go:284-287). -/
def Selection.NextUntilNodes (ctx : DomCtx) (s : Selection) (nodes : List Node) : Selection :=
  pushStack s (getSiblingNodes ctx s.nodes siblingNextUntil "" nodes)

/-- Wrapper `NextUntilSelection` (traversal.go:274-279): a nil selection argument
falls back to `NextAll`. -/
def Selection.NextUntilSelection (ctx : DomCtx) (s : Selection)
    (sel : Option Selection) : Selection :=
  match sel with
  | none => Selection.NextAll ctx s
  | some sel => Selection.NextUntilNodes ctx s sel.nodes

/-- Wrapper `PrevUntil` (traversal.go:292-295). -/
def Selection.PrevUntil (ctx : DomCtx) (s : Selection) (selector : String) : Selection :=
  pushStack s (getSiblingNodes ctx s.nodes siblingPrevUntil selector [])

/-- Wrapper `PrevUntilNodes` (traversal.go:310-313). -/
def Selection.PrevUntilNodes (ctx : DomCtx) (s : Selection) (nodes : List Node) : Selection :=
  pushStack s (getSiblingNodes ctx s.nodes siblingPrevUntil "" nodes)

/-- Wrapper `PrevUntilSelection` (traversal.go:300-305): a nil selection argument
falls back to `PrevAll`. -/
def Selection.PrevUntilSelection (ctx : DomCtx) (s : Selection)
    (sel : Option Selection) : Selection :=
  match sel with
  | none => Selection.PrevAll ctx s
  | some sel => Selection.PrevUntilNodes ctx s sel.nodes

/-- Wrapper `Parents` (traversal.go:140-142). -/
def Selection.Parents (ctx : DomCtx) (s : Selection) : Selection :=
  pushStack s (getParentsNodes ctx s.nodes "" [])

/-- Wrapper `ParentsUntilNodes` (traversal.go:170-172). -/
def Selection.ParentsUntilNodes (ctx : DomCtx) (s : Selection) (nodes : List Node) :
    Selection :=
  pushStack s (getParentsNodes ctx s.nodes "" nodes)

/-- Wrapper `ParentsUntilSelection` (traversal.go:160-165): a nil selection argument
falls back to `Parents`. -/
def Selection.ParentsUntilSelection (ctx : DomCtx) (s : Selection)
    (sel : Option Selection) : Selection :=
  match sel with
  | none => Selection.Parents ctx s
  | some sel => Selection.ParentsUntilNodes ctx s sel.nodes

/-- Wrapper `Contents` (traversal.go:55-57). -/
def Selection.Contents (ctx : DomCtx) (s : Selection) : Selection :=
  pushStack s (getChildrenNodes ctx s.nodes siblingAllIncludingNonElements)

/-- Wrapper `Children` (traversal.go:73-75). -/
def Selection.Children (ctx : DomCtx) (s : Selection) : Selection :=
  pushStack s (getChildrenNodes ctx s.nodes siblingAll)

/-- Wrapper `FindNodes` (traversal.go:43-50): keep each given node that is a member
of the selection. -/
def Selection.FindNodes (s : Selection) (nodes : List Node) : Selection :=
  pushStack s (mapNodes nodes fun _ n =>
    if sliceContains s.nodes n then [n] else [])

/-- Wrapper `FindSelection` (traversal.go:33-38): a nil selection argument yields
`pushStack(s, nil)`, the empty selection. -/
def Selection.FindSelection (s : Selection) (sel : Option Selection) : Selection :=
  match sel with
  | none => pushStack s []
  | some sel => Selection.FindNodes s sel.nodes

/-- The ancestor-or-self loop of `ClosestNodes` (traversal.go:116-125):
`for ; n != nil; n = n.Parent`, returning the first node of the chain that is
in the given node set.  The chain walked is `n` followed by its ancestors. -/
def closestFrom (nodes : List Node) : List Node → List Node
  | [] => []
  | c :: rest => if isInSlice nodes c then [c] else closestFrom nodes rest

/-- Wrapper `ClosestNodes` (traversal.go:115-126). -/
def Selection.ClosestNodes (ctx : DomCtx) (s : Selection) (nodes : List Node) :
    Selection :=
  pushStack s (mapNodes s.nodes fun _ n => closestFrom nodes (n :: ctx.ancestors n))

/-- Wrapper `ClosestSelection` (traversal.go:131-136): a nil selection argument
yields `pushStack(s, nil)`, the empty selection. -/
def Selection.ClosestSelection (ctx : DomCtx) (s : Selection)
    (sel : Option Selection) : Selection :=
  match sel with
  | none => pushStack s []
  | some sel => Selection.ClosestNodes ctx s sel.nodes

/-! ## Small helpers for the claim statements -/

theorem takeWhile_all {α : Type} (q : α → Bool) (l : List α)
    (h : ∀ x ∈ l, q x = true) : l.takeWhile q = l := by
  induction l with
  | nil => rfl
  | cons a l' ih =>
    rw [List.takeWhile_cons, h a (List.mem_cons_self a l')]
    exact congrArg _ (ih fun x hx => h x (List.mem_cons_of_mem a hx))

theorem takeWhile_congr {α : Type} (q q' : α → Bool) (l : List α)
    (h : ∀ x ∈ l, q x = q' x) : l.takeWhile q = l.takeWhile q' := by
  induction l with
  | nil => rfl
  | cons a l' ih =>
    rw [List.takeWhile_cons, List.takeWhile_cons, h a (List.mem_cons_self a l')]
    cases q' a with
    | false => rfl
    | true => exact congrArg _ (ih fun x hx => h x (List.mem_cons_of_mem a hx))

theorem getSiblingNodes_singleton (ctx : DomCtx) (n : Node) (st : SiblingType)
    (untilSelector : String) (untilNodes : List Node)
    (hnd : (getChildrenWithSiblingType (parentChainOf ctx n) st (some n)
      (sibUntilFunc ctx untilSelector untilNodes)).Nodup) :
    getSiblingNodes ctx [n] st untilSelector untilNodes =
      getChildrenWithSiblingType (parentChainOf ctx n) st (some n)
        (sibUntilFunc ctx untilSelector untilNodes) :=
  mapNodes_singleton n _ hnd

theorem getParentsNodes_singleton (ctx : DomCtx) (n : Node) (stopSelector : String)
    (stopNodes : List Node)
    (hnd : (parentsWalk ctx stopSelector stopNodes (ctx.ancestors n)).Nodup) :
    getParentsNodes ctx [n] stopSelector stopNodes =
      parentsWalk ctx stopSelector stopNodes (ctx.ancestors n) :=
  mapNodes_singleton n _ hnd

theorem getChildrenNodes_singleton (ctx : DomCtx) (n : Node) (st : SiblingType)
    (hnd : (getChildrenWithSiblingType (ctx.children n) st none (fun _ => false)).Nodup) :
    getChildrenNodes ctx [n] st =
      getChildrenWithSiblingType (ctx.children n) st none (fun _ => false) :=
  mapNodes_singleton n _ hnd

/-! ## A concrete document for witnesses

The tree `<html-root> → <div id 10> → [a(el), t(text), p(el), b(el), c(comment), d(el)]`
with the div's parent an element grandparent under a document root. -/

def nA : Node := ⟨0, elementNode⟩
def nT : Node := ⟨1, textNode⟩
def nP : Node := ⟨2, elementNode⟩
def nB : Node := ⟨3, elementNode⟩
def nC : Node := ⟨4, commentNode⟩
def nD : Node := ⟨5, elementNode⟩
def nPar : Node := ⟨10, elementNode⟩
def nGp : Node := ⟨11, elementNode⟩
def nRoot : Node := ⟨12, documentNode⟩

def exChain : List Node := [nA, nT, nP, nB, nC, nD]

def exCtx : DomCtx where
  children := fun n => if n = nPar then exChain else []
  parent := fun n =>
    if n ∈ exChain then some nPar
    else if n = nPar then some nGp
    else if n = nGp then some nRoot
    else none
  ancestors := fun n =>
    if n ∈ exChain then [nPar, nGp, nRoot]
    else if n = nPar then [nGp, nRoot]
    else if n = nGp then [nRoot]
    else []
  isMatch := fun _ _ => false

/-! ## The claims -/

/-- C1: for every input list of source nodes and every expansion function,
the merge performed by `mapNodes` yields a list in which each node reference
appears at most once, and the output order is the concatenation order of the
per-source expansion results with each duplicate dropped at other than its
first occurrence. -/
theorem claim_C1_mapNodes_dedup (nodes : List Node) (f : Nat → Node → List Node) :
    (mapNodes nodes f).Nodup ∧
    mapNodes nodes f = dedupFirstAux [] (expansionConcat f 0 nodes) :=
  ⟨by rw [mapNodes_eq]; exact (dedupFirstAux_nodup [] _).1, mapNodes_eq nodes f⟩

/-- C2: on a duplicate-free sibling chain, the `*Until` walks return exactly
the longest prefix of the element candidates (in walk direction) on which the
stop predicate is false: the stop predicate is tested before appending, the
first matching sibling is never included, and nothing beyond it is. -/
theorem claim_C2_until_exclusive (pre post : List Node) (p : Node) (f : Node → Bool)
    (hnd : (pre ++ p :: post).Nodup) :
    (getChildrenWithSiblingType (pre ++ p :: post) siblingNextUntil (some p) f =
        ((post.filter isElem).takeWhile fun c => !(f c)) ∧
      ∀ c ∈ getChildrenWithSiblingType (pre ++ p :: post) siblingNextUntil (some p) f,
        f c = false) ∧
    (getChildrenWithSiblingType (pre ++ p :: post) siblingPrevUntil (some p) f =
        ((pre.reverse.filter isElem).takeWhile fun c => !(f c)) ∧
      ∀ c ∈ getChildrenWithSiblingType (pre ++ p :: post) siblingPrevUntil (some p) f,
        f c = false) := by
  refine ⟨⟨gCWST_nextUntil pre post p f hnd, ?_⟩, gCWST_prevUntil pre post p f hnd, ?_⟩
  · intro c hc
    rw [gCWST_nextUntil pre post p f hnd] at hc
    simpa using List.mem_takeWhile_imp hc
  · intro c hc
    rw [gCWST_prevUntil pre post p f hnd] at hc
    simpa using List.mem_takeWhile_imp hc

theorem claim_C2_witness :
    ([nA, nT] ++ nP :: [nB, nC, nD]).Nodup ∧
    ((getChildrenWithSiblingType ([nA, nT] ++ nP :: [nB, nC, nD]) siblingNextUntil
        (some nP) (fun c => c == nD) =
        (([nB, nC, nD].filter isElem).takeWhile fun c => !(c == nD)) ∧
      ∀ c ∈ getChildrenWithSiblingType ([nA, nT] ++ nP :: [nB, nC, nD]) siblingNextUntil
          (some nP) (fun c => c == nD), (c == nD) = false) ∧
    (getChildrenWithSiblingType ([nA, nT] ++ nP :: [nB, nC, nD]) siblingPrevUntil
        (some nP) (fun c => c == nD) =
        (([nA, nT].reverse.filter isElem).takeWhile fun c => !(c == nD)) ∧
      ∀ c ∈ getChildrenWithSiblingType ([nA, nT] ++ nP :: [nB, nC, nD]) siblingPrevUntil
          (some nP) (fun c => c == nD), (c == nD) = false)) :=
  ⟨by decide,
    claim_C2_until_exclusive [nA, nT] [nB, nC, nD] nP (fun c => c == nD) (by decide)⟩

/-- C3: on a duplicate-free sibling chain, a sibling walk anchored at a
pivot (passed as the walker's skip node, as every `getSiblingNodes` mode
does — `Siblings` in particular with mode `siblingAll`) never includes the
pivot itself in the result it produces for that pivot, in any mode. -/
theorem claim_C3_pivot_never_in_result (chain : List Node) (p : Node)
    (st : SiblingType) (f : Node → Bool) (hnd : chain.Nodup) :
    p ∉ getChildrenWithSiblingType chain st (some p) f := by
  have hnext : ∀ st', st' = siblingNext ∨ st' = siblingNextAll ∨ st' = siblingNextUntil →
      p ∉ getChildrenWithSiblingType chain st' (some p) f := by
    intro st' hst'
    by_cases hm : p ∈ chain
    · obtain ⟨pre, post, rfl⟩ := List.append_of_mem hm
      have hpp : p ∉ post := (List.nodup_cons.1 hnd.of_append_right).1
      intro hmem
      rw [gCWST_next_modes pre post p f st' hst' hnd] at hmem
      have hsub : List.Sublist (sibTarget st' f (post.filter isElem))
          (post.filter isElem) := by
        rcases hst' with rfl | rfl | rfl
        · exact List.take_sublist 1 _
        · exact List.Sublist.refl _
        · exact List.takeWhile_sublist _
      exact hpp ((List.filter_sublist post).subset (hsub.subset hmem))
    · have hstep : iterStep chain st' (some p) none = none := by
        rcases hst' with rfl | rfl | rfl <;> exact nextSibling_not_mem chain p hm
      show p ∉ walkFuel chain st' (some p) f (chain.length + 1) none
      rw [walkFuel_step_none chain st' (some p) f chain.length none
        (iterFuel_step_none chain st' (some p) chain.length none hstep)]
      simp
  have hprev : ∀ stP stN,
      (stP = siblingPrev ∧ stN = siblingNext ∨
        stP = siblingPrevAll ∧ stN = siblingNextAll ∨
        stP = siblingPrevUntil ∧ stN = siblingNextUntil) →
      p ∉ getChildrenWithSiblingType chain stP (some p) f := by
    intro stP stN hpair
    by_cases hm : p ∈ chain
    · obtain ⟨pre, post, rfl⟩ := List.append_of_mem hm
      intro hmem
      rw [gCWST_prev_modes pre post p f stP stN hpair hnd] at hmem
      have hsub : List.Sublist (sibTarget stN f (pre.reverse.filter isElem))
          (pre.reverse.filter isElem) := by
        rcases hpair with ⟨_, rfl⟩ | ⟨_, rfl⟩ | ⟨_, rfl⟩
        · exact List.take_sublist 1 _
        · exact List.Sublist.refl _
        · exact List.takeWhile_sublist _
      have hp : p ∈ pre :=
        List.mem_reverse.1 ((List.filter_sublist pre.reverse).subset (hsub.subset hmem))
      exact List.disjoint_of_nodup_append hnd hp (List.mem_cons_self p post)
    · have hstep : iterStep chain stP (some p) none = none := by
        rcases hpair with ⟨rfl, _⟩ | ⟨rfl, _⟩ | ⟨rfl, _⟩ <;>
          exact prevSibling_not_mem chain p hm
      show p ∉ walkFuel chain stP (some p) f (chain.length + 1) none
      rw [walkFuel_step_none chain stP (some p) f chain.length none
        (iterFuel_step_none chain stP (some p) chain.length none hstep)]
      simp
  cases st with
  | siblingNext => exact hnext _ (Or.inl rfl)
  | siblingNextAll => exact hnext _ (Or.inr (Or.inl rfl))
  | siblingNextUntil => exact hnext _ (Or.inr (Or.inr rfl))
  | siblingPrev => exact hprev _ siblingNext (Or.inl ⟨rfl, rfl⟩)
  | siblingPrevAll => exact hprev _ siblingNextAll (Or.inr (Or.inl ⟨rfl, rfl⟩))
  | siblingPrevUntil => exact hprev _ siblingNextUntil (Or.inr (Or.inr ⟨rfl, rfl⟩))
  | siblingAll => exact walkFuel_all_skip_not_mem chain _ p f (Or.inl rfl) hnd _ none
  | siblingAllIncludingNonElements =>
    exact walkFuel_all_skip_not_mem chain _ p f (Or.inr rfl) hnd _ none

theorem claim_C3_witness :
    exChain.Nodup ∧
    nP ∉ getChildrenWithSiblingType exChain siblingAll (some nP) (fun _ => false) :=
  ⟨by decide,
    claim_C3_pivot_never_in_result exChain nP siblingAll (fun _ => false) (by decide)⟩

/-- C4: on a duplicate-free sibling chain, the singular walks return at most
one node, equal to the first element of what the corresponding `*All` walk
returns; when the `*All` walk is empty so is the singular walk. -/
theorem claim_C4_single_cardinality (pre post : List Node) (p : Node) (f : Node → Bool)
    (hnd : (pre ++ p :: post).Nodup) :
    (getChildrenWithSiblingType (pre ++ p :: post) siblingNext (some p) f =
        (getChildrenWithSiblingType (pre ++ p :: post) siblingNextAll (some p) f).take 1 ∧
      (getChildrenWithSiblingType (pre ++ p :: post) siblingNext (some p) f).length ≤ 1 ∧
      (getChildrenWithSiblingType (pre ++ p :: post) siblingNextAll (some p) f = [] →
        getChildrenWithSiblingType (pre ++ p :: post) siblingNext (some p) f = [])) ∧
    (getChildrenWithSiblingType (pre ++ p :: post) siblingPrev (some p) f =
        (getChildrenWithSiblingType (pre ++ p :: post) siblingPrevAll (some p) f).take 1 ∧
      (getChildrenWithSiblingType (pre ++ p :: post) siblingPrev (some p) f).length ≤ 1 ∧
      (getChildrenWithSiblingType (pre ++ p :: post) siblingPrevAll (some p) f = [] →
        getChildrenWithSiblingType (pre ++ p :: post) siblingPrev (some p) f = [])) := by
  have hN := gCWST_next pre post p f hnd
  have hNA := gCWST_nextAll pre post p f hnd
  have hP := gCWST_prev pre post p f hnd
  have hPA := gCWST_prevAll pre post p f hnd
  refine ⟨⟨by rw [hN, hNA], ?_, ?_⟩, by rw [hP, hPA], ?_, ?_⟩
  · rw [hN, List.length_take]
    omega
  · intro h
    rw [hNA] at h
    rw [hN, h]
    rfl
  · rw [hP, List.length_take]
    omega
  · intro h
    rw [hPA] at h
    rw [hP, h]
    rfl

theorem claim_C4_witness :
    ([nA, nT] ++ nP :: [nB, nC, nD]).Nodup ∧
    ((getChildrenWithSiblingType ([nA, nT] ++ nP :: [nB, nC, nD]) siblingNext (some nP)
          (fun _ => false) =
        (getChildrenWithSiblingType ([nA, nT] ++ nP :: [nB, nC, nD]) siblingNextAll
          (some nP) (fun _ => false)).take 1 ∧
      (getChildrenWithSiblingType ([nA, nT] ++ nP :: [nB, nC, nD]) siblingNext (some nP)
          (fun _ => false)).length ≤ 1 ∧
      (getChildrenWithSiblingType ([nA, nT] ++ nP :: [nB, nC, nD]) siblingNextAll
          (some nP) (fun _ => false) = [] →
        getChildrenWithSiblingType ([nA, nT] ++ nP :: [nB, nC, nD]) siblingNext (some nP)
          (fun _ => false) = [])) ∧
      (getChildrenWithSiblingType ([nA, nT] ++ nP :: [nB, nC, nD]) siblingPrev (some nP)
          (fun _ => false) =
        (getChildrenWithSiblingType ([nA, nT] ++ nP :: [nB, nC, nD]) siblingPrevAll
          (some nP) (fun _ => false)).take 1 ∧
      (getChildrenWithSiblingType ([nA, nT] ++ nP :: [nB, nC, nD]) siblingPrev (some nP)
          (fun _ => false)).length ≤ 1 ∧
      (getChildrenWithSiblingType ([nA, nT] ++ nP :: [nB, nC, nD]) siblingPrevAll
          (some nP) (fun _ => false) = [] →
        getChildrenWithSiblingType ([nA, nT] ++ nP :: [nB, nC, nD]) siblingPrev (some nP)
          (fun _ => false) = []))) :=
  ⟨by decide,
    claim_C4_single_cardinality [nA, nT] [nB, nC, nD] nP (fun _ => false) (by decide)⟩

/-- C5: on a parent's duplicate-free child chain, the
`siblingAllIncludingNonElements` walk (`Contents`) returns every child in
chain order, and the `siblingAll` walk (`Children`) on the same parent
returns exactly the element subsequence of those children. -/
theorem claim_C5_kind_filter (ctx : DomCtx) (par : Node) (f : Node → Bool)
    (hnd : (ctx.children par).Nodup) :
    getChildrenWithSiblingType (ctx.children par) siblingAllIncludingNonElements none f =
      ctx.children par ∧
    getChildrenWithSiblingType (ctx.children par) siblingAll none f =
      (ctx.children par).filter isElem ∧
    getChildrenNodes ctx [par] siblingAllIncludingNonElements = ctx.children par ∧
    getChildrenNodes ctx [par] siblingAll = (ctx.children par).filter isElem := by
  refine ⟨gCWST_allIncl_noskip _ f hnd, gCWST_all_noskip _ f hnd, ?_, ?_⟩
  · rw [getChildrenNodes_singleton ctx par _
      (by rw [gCWST_allIncl_noskip _ _ hnd]; exact hnd)]
    exact gCWST_allIncl_noskip _ _ hnd
  · rw [getChildrenNodes_singleton ctx par _
      (by rw [gCWST_all_noskip _ _ hnd]; exact hnd.filter _)]
    exact gCWST_all_noskip _ _ hnd

theorem claim_C5_witness :
    (exCtx.children nPar).Nodup ∧
    (getChildrenWithSiblingType (exCtx.children nPar) siblingAllIncludingNonElements none
        (fun _ => false) = exCtx.children nPar ∧
      getChildrenWithSiblingType (exCtx.children nPar) siblingAll none (fun _ => false) =
        (exCtx.children nPar).filter isElem ∧
      getChildrenNodes exCtx [nPar] siblingAllIncludingNonElements = exCtx.children nPar ∧
      getChildrenNodes exCtx [nPar] siblingAll = (exCtx.children nPar).filter isElem) :=
  ⟨by decide, claim_C5_kind_filter exCtx nPar (fun _ => false) (by decide)⟩

/-- C6: for an element node with a parent, reversing the `PrevAll` walk
result, then the node itself, then the `NextAll` walk result reconstructs
the parent's element children in chain (document) order. -/
theorem claim_C6_order_reconstruction (ctx : DomCtx) (n par : Node)
    (pre post : List Node)
    (hpar : ctx.parent n = some par) (hch : ctx.children par = pre ++ n :: post)
    (hnd : (pre ++ n :: post).Nodup) (hel : n.typ = elementNode) :
    (getSiblingNodes ctx [n] siblingPrevAll "" []).reverse ++
      n :: getSiblingNodes ctx [n] siblingNextAll "" [] =
      (ctx.children par).filter isElem := by
  have hpc : parentChainOf ctx n = pre ++ n :: post := by
    unfold parentChainOf
    rw [hpar]
    exact hch
  have hPA : getSiblingNodes ctx [n] siblingPrevAll "" [] = pre.reverse.filter isElem := by
    have h2 : getChildrenWithSiblingType (parentChainOf ctx n) siblingPrevAll (some n)
        (sibUntilFunc ctx "" []) = pre.reverse.filter isElem := by
      rw [hpc]
      exact gCWST_prevAll pre post n _ hnd
    rw [getSiblingNodes_singleton ctx n siblingPrevAll "" []
      (by rw [h2]; exact (List.nodup_reverse.2 hnd.of_append_left).filter _), h2]
  have hNA : getSiblingNodes ctx [n] siblingNextAll "" [] = post.filter isElem := by
    have h2 : getChildrenWithSiblingType (parentChainOf ctx n) siblingNextAll (some n)
        (sibUntilFunc ctx "" []) = post.filter isElem := by
      rw [hpc]
      exact gCWST_nextAll pre post n _ hnd
    rw [getSiblingNodes_singleton ctx n siblingNextAll "" []
      (by rw [h2]; exact ((List.nodup_cons.1 hnd.of_append_right).2).filter _), h2]
  rw [hPA, hNA, hch, List.filter_reverse, List.reverse_reverse, List.filter_append,
    List.filter_cons, if_pos (by simp [isElem, hel])]

theorem claim_C6_witness :
    exCtx.parent nP = some nPar ∧
    exCtx.children nPar = [nA, nT] ++ nP :: [nB, nC, nD] ∧
    ([nA, nT] ++ nP :: [nB, nC, nD]).Nodup ∧
    nP.typ = elementNode ∧
    (getSiblingNodes exCtx [nP] siblingPrevAll "" []).reverse ++
      nP :: getSiblingNodes exCtx [nP] siblingNextAll "" [] =
      (exCtx.children nPar).filter isElem :=
  ⟨by decide, by decide, by decide, by decide,
    claim_C6_order_reconstruction exCtx nP nPar [nA, nT] [nB, nC, nD]
      (by decide) (by decide) (by decide) (by decide)⟩

/-- C7: the ancestors walk collects, for each source node, the element
ancestors of the longest prefix of the ancestor chain on which the stop
condition (selector when non-empty, otherwise non-empty stop-node set) does
not fire — the matching ancestor and everything above it are excluded — and
collects element ancestors all the way to the root when no stop matches. -/
theorem claim_C7_ancestors_walk (ctx : DomCtx) (n : Node) (stopSelector : String)
    (stopNodes : List Node) (hnd : (ctx.ancestors n).Nodup) :
    getParentsNodes ctx [n] stopSelector stopNodes =
      ((ctx.ancestors n).takeWhile fun p =>
        !(parentsStop ctx stopSelector stopNodes p)).filter isElem ∧
    ((∀ p ∈ ctx.ancestors n, parentsStop ctx stopSelector stopNodes p = false) →
      getParentsNodes ctx [n] stopSelector stopNodes = (ctx.ancestors n).filter isElem) := by
  have hw := parentsWalk_eq ctx stopSelector stopNodes (ctx.ancestors n)
  have hnd' : (parentsWalk ctx stopSelector stopNodes (ctx.ancestors n)).Nodup := by
    rw [hw]
    exact (hnd.sublist (List.takeWhile_sublist _)).filter _
  have hsing := getParentsNodes_singleton ctx n stopSelector stopNodes hnd'
  constructor
  · rw [hsing, hw]
  · intro hall
    rw [hsing, hw, takeWhile_all _ _ (by intro x hx; simp [hall x hx])]

theorem claim_C7_witness :
    (exCtx.ancestors nA).Nodup ∧
    (getParentsNodes exCtx [nA] "" [nGp] =
      ((exCtx.ancestors nA).takeWhile fun p => !(parentsStop exCtx "" [nGp] p)).filter
        isElem ∧
    ((∀ p ∈ exCtx.ancestors nA, parentsStop exCtx "" [nGp] p = false) →
      getParentsNodes exCtx [nA] "" [nGp] = (exCtx.ancestors nA).filter isElem)) :=
  ⟨by decide, claim_C7_ancestors_walk exCtx nA "" [nGp] (by decide)⟩

/-- C8: the descendant search runs the selector's subtree enumeration only
on each source's immediate element children, so every handle it returns is a
strict descendant of some source handle, and a source's own expansion never
yields the source itself, whatever the selector matches. -/
theorem claim_C8_find_strict_descendants (trees : List HTree) (p : Node → Bool) :
    (∀ t' ∈ findWithSelector trees p, ∃ t ∈ trees, t' ∈ strictSubtrees t) ∧
    ∀ t : HTree, t ∉ findExpand p t.childTrees := by
  constructor
  · intro t' h
    obtain ⟨t, ht, _, hj⟩ := mem_mapNodes trees _ t' h
    exact ⟨t, ht, mem_findExpand p t.childTrees t' hj⟩
  · intro t hmem
    exact self_not_mem_strictSubtrees t (mem_findExpand p t.childTrees t hmem)

/-- C9: in the `*Until` sibling walks the stop predicate is only ever
evaluated on element-kind candidates — the node-kind filter runs inside the
iterator, before the until test — so two stop predicates agreeing on
elements give identical walks, and an until-node set containing only
non-element nodes (for example a text node) never terminates the walk:
`NextUntil`/`PrevUntil` then coincide with `NextAll`/`PrevAll`. -/
theorem claim_C9_until_skips_non_elements (ctx : DomCtx) (n par : Node)
    (pre post : List Node) (untilNodes : List Node) (f f' : Node → Bool)
    (hpar : ctx.parent n = some par) (hch : ctx.children par = pre ++ n :: post)
    (hnd : (pre ++ n :: post).Nodup)
    (hagree : ∀ c, c.typ = elementNode → f c = f' c)
    (hnonel : ∀ u ∈ untilNodes, u.typ ≠ elementNode) :
    (getChildrenWithSiblingType (pre ++ n :: post) siblingNextUntil (some n) f =
        getChildrenWithSiblingType (pre ++ n :: post) siblingNextUntil (some n) f' ∧
      getChildrenWithSiblingType (pre ++ n :: post) siblingPrevUntil (some n) f =
        getChildrenWithSiblingType (pre ++ n :: post) siblingPrevUntil (some n) f') ∧
    (getSiblingNodes ctx [n] siblingNextUntil "" untilNodes =
        getSiblingNodes ctx [n] siblingNextAll "" [] ∧
      getSiblingNodes ctx [n] siblingPrevUntil "" untilNodes =
        getSiblingNodes ctx [n] siblingPrevAll "" []) := by
  have helem : ∀ (l : List Node), ∀ x ∈ l.filter isElem, x.typ = elementNode := by
    intro l x hx
    have := (List.mem_filter.1 hx).2
    simpa [isElem] using this
  have hpc : parentChainOf ctx n = pre ++ n :: post := by
    unfold parentChainOf
    rw [hpar]
    exact hch
  have hf₀ : ∀ x, x.typ = elementNode → sibUntilFunc ctx "" untilNodes x = false := by
    intro x hx
    unfold sibUntilFunc
    rw [if_neg (fun h => h rfl)]
    by_cases hlen : 0 < untilNodes.length
    · rw [if_pos hlen]
      have hxm : x ∉ untilNodes := fun hmem => hnonel x hmem hx
      simpa [isInSlice] using hxm
    · rw [if_neg hlen]
  constructor
  · constructor
    · rw [gCWST_nextUntil pre post n f hnd, gCWST_nextUntil pre post n f' hnd]
      exact takeWhile_congr _ _ _ fun x hx => by rw [hagree x (helem post x hx)]
    · rw [gCWST_prevUntil pre post n f hnd, gCWST_prevUntil pre post n f' hnd]
      exact takeWhile_congr _ _ _ fun x hx => by rw [hagree x (helem pre.reverse x hx)]
  · have hndN : (post.filter isElem).Nodup :=
      ((List.nodup_cons.1 hnd.of_append_right).2).filter _
    have hndP : (pre.reverse.filter isElem).Nodup :=
      (List.nodup_reverse.2 hnd.of_append_left).filter _
    have hNU : getChildrenWithSiblingType (parentChainOf ctx n) siblingNextUntil (some n)
        (sibUntilFunc ctx "" untilNodes) = post.filter isElem := by
      rw [hpc, gCWST_nextUntil pre post n _ hnd]
      exact takeWhile_all _ _ fun x hx => by simp [hf₀ x (helem post x hx)]
    have hNA : getChildrenWithSiblingType (parentChainOf ctx n) siblingNextAll (some n)
        (sibUntilFunc ctx "" []) = post.filter isElem := by
      rw [hpc]
      exact gCWST_nextAll pre post n _ hnd
    have hPU : getChildrenWithSiblingType (parentChainOf ctx n) siblingPrevUntil (some n)
        (sibUntilFunc ctx "" untilNodes) = pre.reverse.filter isElem := by
      rw [hpc, gCWST_prevUntil pre post n _ hnd]
      exact takeWhile_all _ _ fun x hx => by simp [hf₀ x (helem pre.reverse x hx)]
    have hPA : getChildrenWithSiblingType (parentChainOf ctx n) siblingPrevAll (some n)
        (sibUntilFunc ctx "" []) = pre.reverse.filter isElem := by
      rw [hpc]
      exact gCWST_prevAll pre post n _ hnd
    constructor
    · rw [getSiblingNodes_singleton ctx n siblingNextUntil "" untilNodes
        (by rw [hNU]; exact hndN), hNU,
        getSiblingNodes_singleton ctx n siblingNextAll "" []
        (by rw [hNA]; exact hndN), hNA]
    · rw [getSiblingNodes_singleton ctx n siblingPrevUntil "" untilNodes
        (by rw [hPU]; exact hndP), hPU,
        getSiblingNodes_singleton ctx n siblingPrevAll "" []
        (by rw [hPA]; exact hndP), hPA]

theorem claim_C9_witness :
    exCtx.parent nP = some nPar ∧
    exCtx.children nPar = [nA, nT] ++ nP :: [nB, nC, nD] ∧
    ([nA, nT] ++ nP :: [nB, nC, nD]).Nodup ∧
    (∀ c, c.typ = elementNode → (c == nC) = ((c == nC) || (c == nT))) ∧
    (∀ u ∈ [nC, nT], u.typ ≠ elementNode) ∧
    ((getChildrenWithSiblingType ([nA, nT] ++ nP :: [nB, nC, nD]) siblingNextUntil
          (some nP) (fun c => c == nC) =
        getChildrenWithSiblingType ([nA, nT] ++ nP :: [nB, nC, nD]) siblingNextUntil
          (some nP) (fun c => (c == nC) || (c == nT)) ∧
      getChildrenWithSiblingType ([nA, nT] ++ nP :: [nB, nC, nD]) siblingPrevUntil
          (some nP) (fun c => c == nC) =
        getChildrenWithSiblingType ([nA, nT] ++ nP :: [nB, nC, nD]) siblingPrevUntil
          (some nP) (fun c => (c == nC) || (c == nT))) ∧
    (getSiblingNodes exCtx [nP] siblingNextUntil "" [nC, nT] =
        getSiblingNodes exCtx [nP] siblingNextAll "" [] ∧
      getSiblingNodes exCtx [nP] siblingPrevUntil "" [nC, nT] =
        getSiblingNodes exCtx [nP] siblingPrevAll "" [])) :=
  ⟨by decide, by decide, by decide,
    (by
      intro c hc
      have hT : (c == nT) = false := by
        have : c ≠ nT := by
          intro he
          rw [he] at hc
          exact absurd hc (by decide)
        simpa using this
      rw [hT, Bool.or_false]),
    by decide,
    claim_C9_until_skips_non_elements exCtx nP nPar [nA, nT] [nB, nC, nD] [nC, nT]
      (fun c => c == nC) (fun c => (c == nC) || (c == nT))
      (by decide) (by decide) (by decide)
      (by
        intro c hc
        show (c == nC) = ((c == nC) || (c == nT))
        have hT : (c == nT) = false := by
          have : c ≠ nT := by
            intro he
            rw [he] at hc
            exact absurd hc (by decide)
          simpa using this
        rw [hT, Bool.or_false])
      (by decide)⟩

/-- C10: the nil-selection handling of the public operations is asymmetric:
`NextUntilSelection`, `PrevUntilSelection` and `ParentsUntilSelection` fall
back to the unbounded `NextAll`, `PrevAll` and `Parents` walks on a nil
argument, while `FindSelection` and `ClosestSelection` return the empty
selection — and the fallback is a genuine walk, non-empty on a concrete
document. -/
theorem claim_C10_nil_selection_asymmetry :
    (∀ (ctx : DomCtx) (s : Selection),
      Selection.NextUntilSelection ctx s none = Selection.NextAll ctx s ∧
      Selection.PrevUntilSelection ctx s none = Selection.PrevAll ctx s ∧
      Selection.ParentsUntilSelection ctx s none = Selection.Parents ctx s ∧
      (Selection.FindSelection s none).nodes = [] ∧
      (Selection.ClosestSelection ctx s none).nodes = []) ∧
    (Selection.NextUntilSelection exCtx ⟨[nP]⟩ none).nodes ≠ [] := by
  constructor
  · intro ctx s
    exact ⟨rfl, rfl, rfl, rfl, rfl⟩
  · decide
